import Mathlib

/-!
Verification development for the mutation pipeline of a terminal-based
multi-agent coding assistant.

The TypeScript sources are shallowly embedded:

* POSIX path strings are lexed into segment lists (`String.splitOn "/"`);
  `path.normalize`, `path.join`, `path.relative` and `path.isAbsolute`
  are modelled segment-wise, exactly following Node's posix algorithms.
* The filesystem is a pure map from absolute-path segment lists to file
  contents; `fs` calls become explicit state passing, and a thrown
  exception becomes `Except.error` (so an error result testifies that no
  state was produced past the throw site).
* External collaborators (the JS `RegExp` engine, the npm `diff` and
  `jsonrepair` libraries) are parameters of the functions that call them.
-/

namespace Myaide

/-- JS `String.startsWith(p)` / `path.isAbsolute`-style prefix test. -/
def strStartsWith (s p : String) : Bool := p.data.isPrefixOf s.data

/-- Join path segments with `/` (how Node renders a relative segment list). -/
def joinSegs : List String → String
  | [] => ""
  | [s] => s
  | s :: rest => s ++ "/" ++ joinSegs rest

/-- One step of Node `path.posix.normalize`'s segment resolution; the
accumulator holds the already-resolved segments in reverse order. -/
def normFold (isAbs : Bool) (acc : List String) (seg : String) : List String :=
  if seg = "" ∨ seg = "." then acc
  else if seg = ".." then
    match acc with
    | [] => if isAbs then [] else [".."]
    | top :: rest => if top = ".." then seg :: top :: rest else rest
  else seg :: acc

/-- Node `path.posix.normalize` on a lexed segment list. -/
def normalizeSegs (isAbs : Bool) (segs : List String) : List String :=
  (segs.foldl (normFold isAbs) []).reverse

/-- Length of the common segment prefix (Node `path.posix.relative`'s scan). -/
def commonPrefixLen : List String → List String → Nat
  | a :: as, b :: bs => if a = b then commonPrefixLen as bs + 1 else 0
  | _, _ => 0

/-- Node `path.posix.relative` for two resolved absolute segment lists. -/
def relSegs (fromSegs toSegs : List String) : List String :=
  let common := commonPrefixLen fromSegs toSegs
  List.replicate (fromSegs.length - common) ".." ++ toSegs.drop common

/-- Character-level splitter behind `lexSegs` (split on `/`, keeping empty
pieces, as JS `split("/")` does). -/
def lexSegsAux (cur : List Char) : List Char → List String
  | [] => [⟨cur.reverse⟩]
  | c :: rest =>
    if c = '/' then ⟨cur.reverse⟩ :: lexSegsAux [] rest else lexSegsAux (c :: cur) rest

/-- Lex a path string into segments (`targetPath.split("/")`). -/
def lexSegs (p : String) : List String := lexSegsAux [] p.data

/-!
### FileSystemTool (src/tools/filesystem.ts)
-/

/-- `FileSystemTool.resolve`: join the target against the workspace root,
normalize, and reject the result when `path.relative(root, normalized)`
starts with `".."` or is absolute (the workspace-escape guard). -/
def fsResolve (root : List String) (targetPath : String) : Except String (List String) :=
  let candidate :=
    if strStartsWith targetPath "/" then lexSegs targetPath else root ++ lexSegs targetPath
  let normalized := normalizeSegs true candidate
  let rel := joinSegs (relSegs root normalized)
  if strStartsWith rel ".." || strStartsWith rel "/" then
    .error ("Path escapes workspace: " ++ targetPath)
  else
    .ok normalized

inductive MutationAction where
  | write
  | delete
deriving DecidableEq, Repr

/-- A recorded `FileMutation` (the `PendingMutation` fields plus outcome).
`path` is the workspace-relative string `path.relative(root, resolved)`. -/
structure FileMutation where
  action : MutationAction
  path : String
  preview : Option String := none
  before : Option String := none
  after : Option String := none
  applied : Bool
  reason : Option String := none
deriving DecidableEq, Repr

/-- The disk, as a map from absolute-path segment lists to file contents.
Directory structure (`fs.mkdir`) is not tracked. -/
def FSState := List String → Option String

/-- Point update of the disk map (models `fs.writeFile` / `fs.rm`). -/
def FSState.update (st : FSState) (p : List String) (v : Option String) : FSState :=
  fun q => if q = p then v else st q

structure ToolOpts where
  root : List String
  dryRun : Bool := false
  /-- The optional `confirm` approval callback. -/
  confirm : Option (FileMutation → Bool) := none

/-- JS `content.slice(0, 500)` used for the mutation preview. -/
def strTake (s : String) (n : Nat) : String := ⟨s.data.take n⟩

/-- `FileSystemTool.read`: resolve, then read; a missing file is an error. -/
def FileSystemTool.read (opts : ToolOpts) (st : FSState) (targetPath : String) :
    Except String String := do
  let resolved ← fsResolve opts.root targetPath
  match st resolved with
  | some content => .ok content
  | none => .error ("Failed to read " ++ targetPath ++ ": ENOENT")

/-- `FileSystemTool.write`: resolve (throwing on escape before touching the
disk), snapshot the prior content, honour dry-run and the confirm callback,
then write. -/
def FileSystemTool.write (opts : ToolOpts) (st : FSState) (targetPath content : String) :
    Except String (FSState × FileMutation) := do
  let resolved ← fsResolve opts.root targetPath
  let previousContent := st resolved
  let pending : FileMutation :=
    { action := .write
      path := joinSegs (relSegs opts.root resolved)
      preview := some (strTake content 500)
      before := previousContent
      after := some content
      applied := false }
  if opts.dryRun then
    return (st, { pending with applied := false, reason := some "dry-run" })
  match opts.confirm with
  | some c =>
      if c pending then
        return (st.update resolved (some content), { pending with applied := true })
      else
        return (st, { pending with applied := false, reason := some "declined" })
  | none =>
      return (st.update resolved (some content), { pending with applied := true })

/-- `FileSystemTool.delete`: resolve, snapshot prior content if any, honour
dry-run and confirm, then remove (`fs.rm` with `force: true` succeeds even
when the path does not exist). -/
def FileSystemTool.delete (opts : ToolOpts) (st : FSState) (targetPath : String) :
    Except String (FSState × FileMutation) := do
  let resolved ← fsResolve opts.root targetPath
  let existingContent := st resolved
  let pending : FileMutation :=
    { action := .delete
      path := joinSegs (relSegs opts.root resolved)
      before := existingContent
      applied := false }
  if opts.dryRun then
    return (st, { pending with applied := false, reason := some "dry-run" })
  match opts.confirm with
  | some c =>
      if c pending then
        return (st.update resolved none, { pending with applied := true })
      else
        return (st, { pending with applied := false, reason := some "declined" })
  | none =>
      return (st.update resolved none, { pending with applied := true })

/-!
### Generic string helpers (JS string built-ins used by the pipeline)
-/

/-- JS `String.endsWith`. -/
def strEndsWith (s p : String) : Bool := p.data.isSuffixOf s.data

/-- The whitespace class trimmed by JS `String.trim` / matched by `\s`
(restricted to the characters that occur in this pipeline's data). -/
def isJsWs (c : Char) : Bool :=
  c = ' ' ∨ c = '\t' ∨ c = '\n' ∨ c = '\r' ∨ c = '\x0b' ∨ c = '\x0c' ∨ c = ' '

/-- JS `String.trim`. -/
def strTrim (s : String) : String :=
  ⟨((s.data.dropWhile isJsWs).reverse.dropWhile isJsWs).reverse⟩

/-- First index at which `pat` occurs in the remaining haystack, offset by `i`
(the scan behind JS `String.indexOf`). -/
def indexOfAux (pat : List Char) : List Char → Nat → Option Nat
  | [], i => if pat.isEmpty then some i else none
  | c :: t, i => if pat.isPrefixOf (c :: t) then some i else indexOfAux pat t (i + 1)

/-- JS `String.indexOf` (None models `-1`). -/
def strIndexOf (s pat : String) : Option Nat := indexOfAux pat.data s.data 0

/-- JS `String.lastIndexOf` (None models `-1`). -/
def strLastIndexOf (s pat : String) : Option Nat :=
  ((List.range (s.data.length + 1)).filter (fun i => pat.data.isPrefixOf (s.data.drop i))).getLast?

/-- JS `String.includes`. -/
def strContains (s sub : String) : Bool := (strIndexOf s sub).isSome

/-- JS `text.replace(/\r\n/g, "\n")` (global, left-to-right, non-overlapping). -/
def crlfToLf : List Char → List Char
  | '\r' :: '\n' :: t => '\n' :: crlfToLf t
  | c :: t => c :: crlfToLf t
  | [] => []

/-- JS `text.replace(/\n/g, "\r\n")`. -/
def lfToCrlf : List Char → List Char
  | '\n' :: t => '\r' :: '\n' :: lfToCrlf t
  | c :: t => c :: lfToCrlf t
  | [] => []

/-- Does the string contain a CRLF pair (`/\r\n/.test(...)`)? -/
def containsCRLF (s : String) : Bool := strContains s "\r\n"

/-- Truthiness of an optional JS string field (absent and `""` are falsy). -/
def truthy : Option String → Bool
  | some s => s ≠ ""
  | none => false

/-- Keep the first occurrence of each string (JS `Set` iteration order). -/
def dedupKeepFirstAux (seen : List String) : List String → List String
  | [] => []
  | s :: rest =>
    if s ∈ seen then dedupKeepFirstAux seen rest
    else s :: dedupKeepFirstAux (s :: seen) rest

def dedupKeepFirst (l : List String) : List String := dedupKeepFirstAux [] l

/-- Stable insertion into a length-descending list (models the stable JS
`sort((a, b) => b.length - a.length)`). -/
def insertByLenDesc (x : String) : List String → List String
  | [] => [x]
  | y :: rest => if y.length ≤ x.length then x :: y :: rest else y :: insertByLenDesc x rest

def sortByLenDesc : List String → List String
  | [] => []
  | x :: rest => insertByLenDesc x (sortByLenDesc rest)

/-!
### Rollback protocol (src/ui/App.tsx, `rollbackMutations`)
-/

/-- JS `Map.set`: overwrite the value stored under an existing key (keeping the
key's original insertion position), else append a new entry.  The map behind
`latestByPath` stores mutations keyed by their `path`. -/
def mapSetMutation (acc : List FileMutation) (m : FileMutation) : List FileMutation :=
  if acc.any (fun x => x.path = m.path) then
    acc.map (fun x => if x.path = m.path then m else x)
  else acc ++ [m]

/-- `latestByPath`: one pass of `Map.set` per mutation. -/
def latestByPath (muts : List FileMutation) : List FileMutation :=
  muts.foldl mapSetMutation []

/-- `path.resolve(workspaceRoot, mutation.path)` for an absolute resolved root. -/
def resolveAgainst (root : List String) (p : String) : List String :=
  if strStartsWith p "/" then normalizeSegs true (lexSegs p)
  else normalizeSegs true (root ++ lexSegs p)

/-- The body of the per-mutation rollback `try` block: a `write` mutation is
rolled back by restoring `before` when it was recorded and deleting the target
otherwise (`fs.rm` with `force`); a `delete` mutation by re-creating the file
from `before` when it was recorded, else doing nothing. -/
def rollbackOne (root : List String) (st : FSState) (m : FileMutation) : FSState :=
  let target := resolveAgainst root m.path
  match m.action with
  | .write =>
    match m.before with
    | some b => st.update target (some b)
    | none => st.update target none
  | .delete =>
    match m.before with
    | some b => st.update target (some b)
    | none => st

/-- One loop iteration of `rollbackMutations`.  `ioFails` models an I/O error
thrown inside the per-mutation `try` block: the source catches it, logs it and
continues with the next path, leaving this mutation's path untouched. -/
def rollbackStep (root : List String) (ioFails : FileMutation → Bool) (st : FSState)
    (m : FileMutation) : FSState :=
  if ioFails m then st else rollbackOne root st m

/-- `rollbackMutations`: deduplicate by path keeping the latest mutation per
path (JS `Map` semantics), reverse, and replay. -/
def rollbackMutations (root : List String) (ioFails : FileMutation → Bool) (st : FSState)
    (muts : List FileMutation) : FSState :=
  let ordered := (latestByPath muts).reverse
  ordered.foldl (rollbackStep root ioFails) st

/-!
### JSON values and `JSON.parse` (the V8 parser, modelled)

Numbers are kept as their source lexeme: no claim in this development
compares distinct numeric lexemes, so double rounding never matters.
-/

inductive Json where
  | null
  | bool (b : Bool)
  | num (lexeme : String)
  | str (s : String)
  | arr (items : List Json)
  | obj (fields : List (String × Json))

/-- JS object property assignment: overwrite the value under an existing key
in place (keeping its position), else append the new property. -/
def objInsert (fields : List (String × Json)) (k : String) (v : Json) :
    List (String × Json) :=
  if fields.any (fun f => f.1 = k) then
    fields.map (fun f => if f.1 = k then (k, v) else f)
  else fields ++ [(k, v)]

/-- JSON whitespace accepted between tokens. -/
def jsonWs (c : Char) : Bool := c = ' ' ∨ c = '\t' ∨ c = '\n' ∨ c = '\r'

def skipWs : List Char → List Char
  | c :: rest => if jsonWs c then skipWs rest else c :: rest
  | [] => []

def hexVal (c : Char) : Option Nat :=
  if '0' ≤ c ∧ c ≤ '9' then some (c.toNat - '0'.toNat)
  else if 'a' ≤ c ∧ c ≤ 'f' then some (c.toNat - 'a'.toNat + 10)
  else if 'A' ≤ c ∧ c ≤ 'F' then some (c.toNat - 'A'.toNat + 10)
  else none

/-- Body of a JSON string after the opening quote: returns the decoded
characters and the input after the closing quote.  `\uXXXX` escapes are decoded
with `Char.ofNat` (JS works over UTF-16; inputs in this development stay in the
BMP non-surrogate range, where the two agree). -/
def parseStringBody : List Char → Option (List Char × List Char)
  | [] => none
  | '"' :: rest => some ([], rest)
  | '\\' :: 'u' :: a :: b :: c :: d :: rest =>
    match hexVal a, hexVal b, hexVal c, hexVal d with
    | some ha, some hb, some hc, some hd =>
      (parseStringBody rest).map
        (fun r => (Char.ofNat (((ha * 16 + hb) * 16 + hc) * 16 + hd) :: r.1, r.2))
    | _, _, _, _ => none
  | '\\' :: e :: rest =>
    let esc : Option Char :=
      if e = '"' then some '"'
      else if e = '\\' then some '\\'
      else if e = '/' then some '/'
      else if e = 'b' then some (Char.ofNat 8)
      else if e = 'f' then some (Char.ofNat 12)
      else if e = 'n' then some '\n'
      else if e = 'r' then some '\r'
      else if e = 't' then some '\t'
      else none
    match esc with
    | some ec => (parseStringBody rest).map (fun r => (ec :: r.1, r.2))
    | none => none
  | '\\' :: [] => none
  | c :: rest =>
    if c.toNat < 32 then none
    else (parseStringBody rest).map (fun r => (c :: r.1, r.2))

def isDigitChar (c : Char) : Bool := '0' ≤ c ∧ c ≤ '9'

/-- Optional fraction part of a JSON number. -/
def parseFrac (cs : List Char) : Option (List Char × List Char) :=
  match cs with
  | '.' :: r =>
    let ds := r.takeWhile isDigitChar
    if ds.isEmpty then none else some ('.' :: ds, r.dropWhile isDigitChar)
  | _ => some ([], cs)

/-- Optional exponent part of a JSON number. -/
def parseExp (cs : List Char) : Option (List Char × List Char) :=
  match cs with
  | c :: r =>
    if c = 'e' ∨ c = 'E' then
      let sr : List Char × List Char :=
        match r with
        | s :: r2 => if s = '+' ∨ s = '-' then ([s], r2) else ([], r)
        | [] => ([], r)
      let ds := sr.2.takeWhile isDigitChar
      if ds.isEmpty then none else some (c :: (sr.1 ++ ds), sr.2.dropWhile isDigitChar)
    else some ([], cs)
  | [] => some ([], cs)

/-- Lex a JSON number, returning its source lexeme. -/
def parseNumberLex (cs : List Char) : Option (String × List Char) := do
  let nr : List Char × List Char :=
    match cs with
    | '-' :: r => (['-'], r)
    | _ => ([], cs)
  let ir : List Char × List Char ←
    match nr.2 with
    | '0' :: r => some (['0'], r)
    | c :: r =>
      if isDigitChar c then some (c :: r.takeWhile isDigitChar, r.dropWhile isDigitChar)
      else none
    | [] => none
  let fr ← parseFrac ir.2
  let er ← parseExp fr.2
  return (⟨nr.1 ++ ir.1 ++ fr.1 ++ er.1⟩, er.2)

mutual

/-- Recursive-descent JSON value parser.  The fuel only bounds the recursion
depth; `jsonParse` supplies more fuel than any input can consume. -/
def parseValue : Nat → List Char → Option (Json × List Char)
  | 0, _ => none
  | fuel + 1, cs =>
    match skipWs cs with
    | [] => none
    | '\x7b' :: rest =>
      match skipWs rest with
      | '\x7d' :: rest2 => some (.obj [], rest2)
      | rest2 => parseMembers fuel rest2 []
    | '[' :: rest =>
      match skipWs rest with
      | ']' :: rest2 => some (.arr [], rest2)
      | rest2 => parseItems fuel rest2 []
    | '"' :: rest =>
      match parseStringBody rest with
      | some r => some (.str ⟨r.1⟩, r.2)
      | none => none
    | 't' :: 'r' :: 'u' :: 'e' :: rest => some (.bool true, rest)
    | 'f' :: 'a' :: 'l' :: 's' :: 'e' :: rest => some (.bool false, rest)
    | 'n' :: 'u' :: 'l' :: 'l' :: rest => some (.null, rest)
    | other =>
      match parseNumberLex other with
      | some r => some (.num r.1, r.2)
      | none => none

/-- Object members after the opening brace (at least one member present). -/
def parseMembers : Nat → List Char → List (String × Json) → Option (Json × List Char)
  | 0, _, _ => none
  | fuel + 1, cs, acc =>
    match skipWs cs with
    | '"' :: rest =>
      match parseStringBody rest with
      | some kr =>
        match skipWs kr.2 with
        | ':' :: rest3 =>
          match parseValue fuel rest3 with
          | some vr =>
            let acc2 := objInsert acc ⟨kr.1⟩ vr.1
            match skipWs vr.2 with
            | ',' :: rest5 => parseMembers fuel rest5 acc2
            | '\x7d' :: rest5 => some (.obj acc2, rest5)
            | _ => none
          | none => none
        | _ => none
      | none => none
    | _ => none

/-- Array items after the opening bracket (at least one item present). -/
def parseItems : Nat → List Char → List Json → Option (Json × List Char)
  | 0, _, _ => none
  | fuel + 1, cs, acc =>
    match parseValue fuel cs with
    | some vr =>
      match skipWs vr.2 with
      | ',' :: rest2 => parseItems fuel rest2 (acc ++ [vr.1])
      | ']' :: rest2 => some (.arr (acc ++ [vr.1]), rest2)
      | _ => none
    | none => none

end

/-- `JSON.parse`: a single value with only whitespace around it. -/
def jsonParse (s : String) : Option Json :=
  match parseValue (s.data.length + 1) s.data with
  | some vr => if skipWs vr.2 = [] then some vr.1 else none
  | none => none

/-!
### JSON Recovery Engine (src/agents/implementer-agent.ts)
-/

/-- `normalizeJsonText`: straighten smart quotes, replace em/en dashes with
hyphens, CRLF → LF, strip zero-width and control characters, and turn tabs and
non-breaking spaces into plain spaces — in the source's replacement order. -/
def normalizeJsonText (input : String) (trim : Bool) : String :=
  let step1 := input.data.map (fun c =>
    if c = '“' ∨ c = '”' then '"'
    else if c = '‘' ∨ c = '’' then '\''
    else if c = '–' ∨ c = '—' then '-'
    else c)
  let step2 := crlfToLf step1
  let step3 := step2.filter (fun c =>
    ¬ (c = '​' ∨ c = '‌' ∨ c = '‍' ∨ c = '﻿'))
  let step4 := step3.filter (fun c =>
    ¬ (c.toNat ≤ 8 ∨ c.toNat = 11 ∨ c.toNat = 12 ∨ (14 ≤ c.toNat ∧ c.toNat ≤ 31)))
  let step5 := step4.map (fun c => if c = '\t' ∨ c = '\u00a0' then ' ' else c)
  let cleaned : String := ⟨step5⟩
  if trim then strTrim cleaned else cleaned

/-- The fence-stripping regex `/^```(?:json)?\s*([\s\S]*?)```$/i`, applied to a
trimmed text known to start with three backticks: drop the fence header (with
an optional case-insensitive `json` tag and following whitespace) and require
a closing fence at the very end. -/
def stripFence (t : String) : Option String :=
  let afterTicks := t.data.drop 3
  let afterTag :=
    if (afterTicks.take 4).map Char.toLower = ['j', 's', 'o', 'n'] then afterTicks.drop 4
    else afterTicks
  let body := afterTag.dropWhile isJsWs
  if ("```".data).isSuffixOf body ∧ 3 ≤ body.length then
    some ⟨body.take (body.length - 3)⟩
  else none

/-- `sanitizeJson`: normalize and trim, unwrap a whole-text markdown fence,
and, when the text does not start with `{`, slice from the first `{` to the
last `}`; normalize once more at the end. -/
def sanitizeJson (raw : String) : String :=
  let t1 := normalizeJsonText raw true
  let t2 :=
    if strStartsWith t1 "```" then
      match stripFence t1 with
      | some inner => inner
      | none => t1
    else t1
  let t3 :=
    if ¬ strStartsWith t2 "\x7b" then
      match strIndexOf t2 "\x7b", strLastIndexOf t2 "\x7d" with
      | some first, some last =>
        if first ≤ last then ⟨(t2.data.drop first).take (last + 1 - first)⟩ else t2
      | _, _ => t2
    else t2
  normalizeJsonText t3 true

/-- The string-aware scan state of `balanceJson`: the bracket stack is a JS
array pushed/popped at its end (the last element is the top). -/
structure ScanState where
  inString : Bool
  escaped : Bool
  stack : List Char

def scanStep (st : ScanState) (c : Char) : ScanState :=
  if st.escaped then { st with escaped := false }
  else if c = '\\' then { st with escaped := true }
  else if c = '"' then { st with inString := !st.inString }
  else if st.inString then st
  else if c = '\x7b' ∨ c = '[' then { st with stack := st.stack ++ [c] }
  else if c = '\x7d' ∨ c = ']' then
    match st.stack.getLast? with
    | none => st
    | some top =>
      if (top = '\x7b' ∧ c = '\x7d') ∨ (top = '[' ∧ c = ']') then
        { st with stack := st.stack.dropLast }
      else st
  else st

def scanJson (cs : List Char) : ScanState := cs.foldl scanStep ⟨false, false, []⟩

/-- Closers appended by the balancer: the stack is reversed (innermost open
bracket first) and each open bracket mapped to its closer. -/
def closersOf (stack : List Char) : String :=
  ⟨stack.reverse.map (fun c => if c = '\x7b' then '\x7d' else ']')⟩

/-- `balanceJson`: append the closing brackets inferred from the unmatched
bracket stack of a string-aware scan (mismatched closers are ignored). -/
def balanceJson (input : String) : String :=
  let st := scanJson input.data
  if st.stack = [] then input else input ++ closersOf st.stack

/-- The depth-tracked, string-aware span scan shared by the two extraction
helpers: starting at a `{`, return the span up to and including the matching
`}` (counting only braces). -/
def braceSpanAux : List Char → Int → Bool → Bool → List Char → Option (List Char)
  | [], _, _, _, _ => none
  | c :: rest, depth, inString, escaped, acc =>
    if escaped then braceSpanAux rest depth inString false (acc ++ [c])
    else if c = '\\' then braceSpanAux rest depth inString true (acc ++ [c])
    else if c = '"' then braceSpanAux rest depth (!inString) false (acc ++ [c])
    else if inString then braceSpanAux rest depth inString false (acc ++ [c])
    else if c = '\x7b' then braceSpanAux rest (depth + 1) inString false (acc ++ [c])
    else if c = '\x7d' then
      if depth - 1 = 0 then some (acc ++ [c])
      else braceSpanAux rest (depth - 1) inString false (acc ++ [c])
    else braceSpanAux rest depth inString false (acc ++ [c])

/-- `extractBestEffortJson`: the first top-level `{...}` span of the raw text. -/
def extractBestEffortJson (raw : String) : Option String :=
  match strIndexOf raw "\x7b" with
  | none => none
  | some start =>
    match braceSpanAux (raw.data.drop start) 0 false false [] with
    | some span => some ⟨span⟩
    | none => none

/-- `extractJsonCandidates`: every balanced `{...}` span containing the literal
`"actions"`, trimmed, deduplicated, and stably sorted by length descending. -/
def extractJsonCandidates (raw : String) : List String :=
  let snippets := (List.range raw.data.length).filterMap (fun i =>
    if raw.data.getD i ' ' = '\x7b' then
      match braceSpanAux (raw.data.drop i) 0 false false [] with
      | some span =>
        if strContains ⟨span⟩ "\"actions\"" then some (strTrim ⟨span⟩) else none
      | none => none
    else none)
  sortByLenDesc (dedupKeepFirst snippets)

/-- The per-item step over the additional extracted candidates: items already
in the candidate set are skipped; a new item queues four attempts (plain,
repaired, balanced, repaired-balanced) and joins the set with its balanced
form. -/
def repairAttemptStep (jr : String → String)
    (acc : List (Option Json) × List String) (item : String) :
    List (Option Json) × List String :=
  if item ∈ acc.2 then acc
  else
    (acc.1 ++
      [jsonParse item, jsonParse (jr item),
       jsonParse (balanceJson item), jsonParse (jr (balanceJson item))],
     acc.2 ++ [item, balanceJson item])

/-- The six initial attempts: candidate, balanced candidate, their
`jsonrepair`ed forms, and the repaired raw text in both forms. -/
def repairBaseAttempts (jr : String → String) (candidate raw : String) : List (Option Json) :=
  [jsonParse candidate, jsonParse (balanceJson candidate),
   jsonParse (jr candidate), jsonParse (jr (balanceJson candidate)),
   jsonParse (jr raw), jsonParse (jr (balanceJson raw))]

/-- The full ordered attempt list of `parseWithRepair`: the base attempts,
then four for the best-effort extracted span when present, then four per new
top-level `"actions"` candidate. -/
def repairAttempts (jr : String → String) (candidate raw : String) : List (Option Json) :=
  let attempts1 : List (Option Json) :=
    match extractBestEffortJson raw with
    | some ex =>
      repairBaseAttempts jr candidate raw ++
        [jsonParse ex, jsonParse (jr ex),
         jsonParse (balanceJson ex), jsonParse (jr (balanceJson ex))]
    | none => repairBaseAttempts jr candidate raw
  let candidateSet1 : List String :=
    match extractBestEffortJson raw with
    | some ex => [candidate, balanceJson candidate, ex, balanceJson ex]
    | none => [candidate, balanceJson candidate]
  ((extractJsonCandidates raw).foldl (repairAttemptStep jr) (attempts1, candidateSet1)).1

/-- `parseWithRepair`: the ordered parse/repair attempt cascade; `jr` is the
external `jsonrepair` library.  Each attempt is the result of one
`JSON.parse` call; the first defined one wins. -/
def parseWithRepair (jr : String → String) (candidate raw : String) : Except String Json :=
  match (repairAttempts jr candidate raw).findSome? id with
  | some v => .ok v
  | none =>
    .error ("Implementer returned invalid JSON after repair attempts. Raw response length="
      ++ toString raw.data.length)

def Json.getField : Json → String → Option Json
  | .obj fields, k => (fields.find? (fun f => f.1 = k)).map (fun f => f.2)
  | _, _ => none

/-- JS property write `o[k] = v` (overwrite in place or append). -/
def Json.objSet : Json → String → Json → Json
  | .obj fields, k, v => .obj (objInsert fields k v)
  | j, _, _ => j

/-- Payload post-processing: an action carrying a non-empty `patches` array is
expanded into one sibling action per patch (`{...action, patch}` — the spread
keeps every other field, including `patches` itself). -/
def normalizeActionJson (a : Json) : List Json :=
  match a.getField "patches" with
  | some (.arr ps) => if ps.isEmpty then [a] else ps.map (fun p => a.objSet "patch" p)
  | _ => [a]

/-- `parsePayload` (as reached through `parsePayloadSafe`): sanitize, run the
repair cascade, require an `actions` array, and expand `patches`. -/
def parsePayloadJson (jr : String → String) (raw : String) : Except String Json :=
  match parseWithRepair jr (sanitizeJson raw) raw with
  | .error e => .error e
  | .ok parsed =>
    match parsed.getField "actions" with
    | some (.arr actions) =>
      .ok (parsed.objSet "actions" (.arr (actions.flatMap normalizeActionJson)))
    | _ => .error "Missing actions array in payload"

/-!
### Anchor Locator & Editor (src/agents/implementer-agent.ts)
-/

/-- A located anchor span: `start` = `match.index` / `indexOf` result, `stop` =
one past the last matched character. -/
structure Span where
  start : Nat
  stop : Nat
deriving DecidableEq, Repr

/-- The external JS `RegExp` engine.  `exec pattern flags content` is `none`
when the regex fails to compile (the source catches the error and falls
through), `some none` when it compiles but finds no match, and
`some (some sp)` for a match spanning `[sp.start, sp.stop)`. -/
structure RegexEngine where
  exec : String → String → String → Option (Option Span)

/-- One guarded regex probe: `if (match && match[0])` — the match must exist
and its text must be non-empty (an empty `match[0]` is falsy). -/
def regexBranch (re : RegexEngine) (pattern flags content : String) : Option Span :=
  match re.exec pattern flags content with
  | some (some sp) => if sp.stop ≠ sp.start then some sp else none
  | _ => none

/-- The metacharacter class of `escapeForRegex` (hyphen, slash, backslash,
caret, dollar, star, plus, question mark, dot, parens, pipe, square and curly
brackets). -/
def regexMeta : List Char :=
  ['-', '/', '\\', '^', '$', '*', '+', '?', '.', '(', ')', '|', '[', ']', '\x7b', '\x7d']

/-- `escapeForRegex`: prefix every regex metacharacter with a backslash. -/
def escapeForRegex (input : String) : String :=
  ⟨input.data.flatMap (fun c => if c ∈ regexMeta then ['\\', c] else [c])⟩

/-- The global replace collapsing each whitespace run into the literal
pattern `\s+`; the flag tracks whether the scan is inside a run whose
replacement has already been emitted. -/
def collapseWsToPattern : List Char → Bool → List Char
  | [], _ => []
  | c :: rest, inRun =>
    if isJsWs c then
      if inRun then collapseWsToPattern rest true
      else '\\' :: 's' :: '+' :: collapseWsToPattern rest true
    else c :: collapseWsToPattern rest false

/-- `buildLooseRegex`: escape the trimmed anchor and widen whitespace runs;
`none` when the anchor trims to nothing. -/
def buildLooseRegex (snippet : String) : Option String :=
  let trimmed := strTrim snippet
  if trimmed = "" then none
  else some ⟨collapseWsToPattern (escapeForRegex trimmed).data false⟩

structure AnchorSpec where
  exact : Option String := none
  regex : Option String := none
deriving DecidableEq, Repr

/-- `locateAnchor`: regex first (multiline), then exact `indexOf`, then the
trimmed anchor, then the loose whitespace-collapsed case-insensitive regex. -/
def locateAnchor (re : RegexEngine) (content : String) (anchor : AnchorSpec) :
    Option Span :=
  let fromRegex : Option Span :=
    match anchor.regex with
    | some pat => if pat ≠ "" then regexBranch re pat "m" content else none
    | none => none
  match fromRegex with
  | some sp => some sp
  | none =>
    match anchor.exact with
    | some exact =>
      if exact ≠ "" then
        match strIndexOf content exact with
        | some i => some ⟨i, i + exact.data.length⟩
        | none =>
          let tr := strTrim exact
          let fromTrimmed : Option Span :=
            if tr ≠ "" ∧ tr ≠ exact then
              (strIndexOf content tr).map (fun i => ⟨i, i + tr.data.length⟩)
            else none
          match fromTrimmed with
          | some sp => some sp
          | none =>
            match buildLooseRegex exact with
            | some pat => regexBranch re pat "mi" content
            | none => none
      else none
    | none => none

inductive ModifyMode where
  | replace
  | insertAfter
  | insertBefore
deriving DecidableEq, Repr

/-- The three splices of `applyAnchoredModification` (JS
`original.slice(a, b)` splicing, over characters). -/
def spliceEdit (original : String) (mode : ModifyMode) (start stop : Nat)
    (replacement snippet : String) : String :=
  match mode with
  | .replace => ⟨original.data.take start ++ replacement.data ++ original.data.drop stop⟩
  | .insertAfter => ⟨original.data.take stop ++ snippet.data ++ original.data.drop stop⟩
  | .insertBefore => ⟨original.data.take start ++ snippet.data ++ original.data.drop start⟩

inductive ActionType where
  | write_file
  | modify_file
  | delete_path
deriving DecidableEq, Repr

/-- One `ImplementationAction` from the payload (`patches` arrays have already
been expanded away by payload normalization). -/
structure ImplementationAction where
  type : ActionType
  path : String
  content : Option String := none
  patch : Option String := none
  mode : Option ModifyMode := none
  anchor : Option AnchorSpec := none
  replacement : Option String := none
  snippet : Option String := none
  ensure : Option String := none
deriving DecidableEq, Repr

/-- The mode defaulting `action.mode ?? (action.replacement ? "replace" :
"insert_after")` (JS truthiness: an empty replacement string is falsy). -/
def anchorMode (action : ImplementationAction) : ModifyMode :=
  action.mode.getD (if truthy action.replacement then .replace else .insertAfter)

/-- `applyAnchoredModification`: mode defaulting and guards, CRLF-normalized
read, anchor location, splice, optional post-condition check, CRLF restore,
then a single write.  Every error is raised before the write. -/
def applyAnchoredModification (re : RegexEngine) (opts : ToolOpts) (st : FSState)
    (action : ImplementationAction) : Except String (FSState × FileMutation) :=
  match action.anchor with
  | none => .error ("modify_file anchor missing for " ++ action.path)
  | some anchor =>
    let mode := anchorMode action
    if mode = .replace ∧ action.replacement.isNone then
      .error ("modify_file replacement missing for replace mode: " ++ action.path)
    else if mode ≠ .replace ∧ action.snippet.isNone then
      .error ("modify_file snippet missing for " ++ action.path)
    else
      match FileSystemTool.read opts st action.path with
      | .error e => .error e
      | .ok originalRaw =>
        let hadCRLF := containsCRLF originalRaw
        let original : String := if hadCRLF then ⟨crlfToLf originalRaw.data⟩ else originalRaw
        match locateAnchor re original anchor with
        | none => .error ("Unable to locate anchor for " ++ action.path)
        | some sp =>
          let updated :=
            spliceEdit original mode sp.start sp.stop
              (action.replacement.getD "") (action.snippet.getD "")
          if truthy action.ensure ∧ ¬ strContains updated (action.ensure.getD "") then
            .error ("Post-condition not met for " ++ action.path)
          else
            let finalContent : String := if hadCRLF then ⟨lfToCrlf updated.data⟩ else updated
            FileSystemTool.write opts st action.path finalContent

/-!
### Diff Applier (src/agents/implementer-agent.ts)

`parsePatch` / `applyPatch` come from the external npm `diff` library and are
abstracted behind `DiffLib`; everything built on top of them is the
repository's own code and is embedded from it.
-/

/-- A structured hunk as produced by the library's `parsePatch`: its declared
old-file start line and its tagged lines (each beginning with `" "`, `"-"` or
`"+"`). -/
structure Hunk where
  oldStart : Nat
  lines : List String
deriving DecidableEq, Repr

structure ParsedPatch where
  oldFileName : String
  newFileName : String
  hunks : List Hunk
deriving DecidableEq, Repr

/-- The external `diff` library.  `parsePatch` either throws (`.error`) or
returns structured patches; `applyStr` / `applyObj` model the two overloads of
`applyPatch` at a given fuzz factor, returning `.ok none` for the library's
`false` ("could not reconcile") result and `.error` for a thrown exception. -/
structure DiffLib where
  parsePatch : String → Except String (List ParsedPatch)
  applyStr : String → String → Nat → Except String (Option String)
  applyObj : String → ParsedPatch → Nat → Except String (Option String)

def PATCH_HEADER_PREFIXES : List String :=
  ["diff --git", "index ", "---", "+++", "Binary files", "new file mode",
   "deleted file mode", "rename from", "rename to", "old mode", "new mode"]

/-- Does the trimmed line consist solely of JSON punctuation (quotes, commas,
brackets and braces)?  Models the stray-artifact line test. -/
def onlyJsonPunct (s : String) : Bool :=
  ¬ s.data.isEmpty ∧ s.data.all (fun c => c ∈ ['"', '\'', ',', '[', ']', '\x7b', '\x7d'])

/-- Per-line step of `sanitizePatchArtifacts`: `none` drops the line; the flag
records whether the output differs from the input line. -/
def sanitizePatchLine (line : String) : Option String × Bool :=
  if line = "" then (some line, false)
  else
    let nl := normalizeJsonText line false
    let trimmed := strTrim nl
    if onlyJsonPunct trimmed then (none, true)
    else
      let firstChar := (nl.data.head?).getD ((line.data.head?).getD ' ')
      let isDiffContent :=
        firstChar = '+' ∨ firstChar = '-' ∨ firstChar = ' ' ∨ firstChar = '@' ∨ firstChar = '\\'
      let isHeader := PATCH_HEADER_PREFIXES.any (fun p => strStartsWith nl p)
      if trimmed = "" then
        let blank := if strStartsWith nl " " then nl else " "
        (some blank, blank ≠ line)
      else if isDiffContent then
        let rebuilt : String := ⟨firstChar :: nl.data.drop 1⟩
        (some rebuilt, rebuilt ≠ line)
      else if isHeader then (some nl, nl ≠ line)
      else
        let quotedResult : Option (Option String × Bool) :=
          if (strStartsWith nl "\"" ∧ strEndsWith nl "\"") ∨
             (strStartsWith nl "'" ∧ strEndsWith nl "'") then
            let unq : String := ⟨(nl.data.drop 1).dropLast⟩
            if unq = "" then some (none, true)
            else
              let uf := (unq.data.head?).getD ' '
              let ufIsDiff :=
                uf = '+' ∨ uf = '-' ∨ uf = ' ' ∨ uf = '@' ∨ uf = '\\' ∨
                PATCH_HEADER_PREFIXES.any (fun p => strStartsWith unq p)
              if ufIsDiff then some (some unq, true)
              else if onlyJsonPunct (strTrim unq) then some (none, true)
              else none
          else none
        match quotedResult with
        | some r => r
        | none =>
          -- a trimmed line equal to a single punctuation character was already
          -- dropped by the first test above
          let normalized := if strStartsWith nl " " then nl else " " ++ nl
          (some normalized, normalized ≠ line)

/-- `sanitizePatchArtifacts`: strip stray JSON-encoding artifacts from a diff
line by line; return the original text when nothing changed. -/
def sanitizePatchArtifacts (patch : String) : String :=
  let results := (patch.splitOn "\n").map sanitizePatchLine
  if results.any (fun r => r.2) then
    String.intercalate "\n" (results.filterMap (fun r => r.1))
  else patch

/-!
### Manual hunk splicing (last-resort patch application)
-/

/-- `Math.max(0, Math.min(len, x))`. -/
def clampToLen (len : Nat) (x : Int) : Int := max 0 (min (len : Int) x)

/-- The widening candidate-index scan of `findBestSequenceIndex`: for each
delta, push `approx + delta` (when in range) then `approx - delta` (when
non-negative and delta non-zero), stopping once more than `len` candidates
have accumulated. -/
def candidatesAux (len approx : Nat) : Nat → Nat → List Nat → List Nat
  | _, 0, acc => acc
  | delta, fuel + 1, acc =>
    let acc1 := if approx + delta < len then acc ++ [approx + delta] else acc
    let acc2 := if delta ≠ 0 ∧ delta ≤ approx then acc1 ++ [approx - delta] else acc1
    if acc2.length > len then acc2
    else candidatesAux len approx (delta + 1) fuel acc2

def buildCandidates (len approx : Nat) : List Nat :=
  candidatesAux len approx 0 (len + 1) []

/-- `matchesAt`: does `needle` (optionally compared line-trimmed) occur as a
contiguous block of `haystack` starting at `index`? -/
def matchesAt (haystack needle : List String) (index : Nat) (useTrimmed : Bool) : Bool :=
  if haystack.length < index + needle.length then false
  else
    (List.range needle.length).all (fun i =>
      let hay := haystack.getD (index + i) ""
      let ned := needle.getD i ""
      (if useTrimmed then strTrim hay else hay) = (if useTrimmed then strTrim ned else ned))

/-- The scanning loop of `matchesPartial`: advance through the haystack from
`j`, consuming a needle line on every match, until the needle is exhausted.
The fuel only bounds the iteration count (`j` grows every round, so
`haystack.length + 1` rounds always suffice); on exhaustion the loop-exit
value is returned. -/
def matchesPartialGo (haystack needle : List String) (useTrimmed : Bool) :
    Nat → Nat → Nat → Nat → Bool
  | 0, _, _, matchCount => matchCount = needle.length
  | fuel + 1, i, j, matchCount =>
    if i < needle.length ∧ j < haystack.length then
      let hay := haystack.getD j ""
      let ned := needle.getD i ""
      if (if useTrimmed then strTrim hay else hay) = (if useTrimmed then strTrim ned else ned) then
        if matchCount + 1 = needle.length then true
        else matchesPartialGo haystack needle useTrimmed fuel (i + 1) (j + 1) (matchCount + 1)
      else matchesPartialGo haystack needle useTrimmed fuel i (j + 1) matchCount
    else matchCount = needle.length

/-- `matchesPartial`: does `needle` occur as a subsequence of `haystack`
starting the scan at `index`? -/
def matchesPartial (haystack needle : List String) (index : Nat) (useTrimmed : Bool) : Bool :=
  if needle.isEmpty then false
  else if haystack.length ≤ index then false
  else matchesPartialGo haystack needle useTrimmed (haystack.length + 1) 0 index 0

/-- `findBestSequenceIndex` (result `-1` = no heuristic found a window):
exact window near the declared offset, then trimmed window, then the
removed-lines subsequence, then the first three context lines. -/
def findBestSequenceIndex (haystack needle removed context : List String)
    (oldStart : Nat) (offset : Int) : Int :=
  if needle.isEmpty then clampToLen haystack.length ((oldStart : Int) - 1 + offset)
  else
    let approx := (clampToLen haystack.length ((oldStart : Int) - 1 + offset)).toNat
    let candidates := buildCandidates haystack.length approx
    match candidates.find? (fun cand => matchesAt haystack needle cand false) with
    | some cand => (cand : Int)
    | none =>
    match candidates.find? (fun cand => matchesAt haystack needle cand true) with
    | some cand => (cand : Int)
    | none =>
      let removedSequence := removed.filter (fun l => ¬ (strTrim l).data.isEmpty)
      let fromRemoved : Option Nat :=
        if ¬ removed.isEmpty ∧ ¬ removedSequence.isEmpty then
          candidates.find? (fun cand => matchesPartial haystack removedSequence cand true)
        else none
      match fromRemoved with
      | some cand => (cand : Int)
      | none =>
        let contextSequence := context.take (min context.length 3)
        let fromContext : Option Nat :=
          if ¬ context.isEmpty ∧ ¬ contextSequence.isEmpty then
            candidates.find? (fun cand => matchesPartial haystack contextSequence cand true)
          else none
        match fromContext with
        | some cand => (cand : Int)
        | none => -1

/-- `hunk.lines.filter(startsWith " " or "-").map(slice(1))`: the old-file
window the hunk replaces. -/
def hunkTarget (h : Hunk) : List String :=
  (h.lines.filter (fun l => strStartsWith l " " || strStartsWith l "-")).map
    (fun l => (⟨l.data.drop 1⟩ : String))

/-- Context plus added lines: the replacement block spliced in. -/
def hunkReplacement (h : Hunk) : List String :=
  (h.lines.filter (fun l => strStartsWith l " " || strStartsWith l "+")).map
    (fun l => (⟨l.data.drop 1⟩ : String))

def hunkRemoved (h : Hunk) : List String :=
  (h.lines.filter (fun l => strStartsWith l "-")).map (fun l => (⟨l.data.drop 1⟩ : String))

def hunkAdded (h : Hunk) : List String :=
  (h.lines.filter (fun l => strStartsWith l "+")).map (fun l => (⟨l.data.drop 1⟩ : String))

def hunkContext (h : Hunk) : List String :=
  (h.lines.filter (fun l => strStartsWith l " ")).map (fun l => (⟨l.data.drop 1⟩ : String))

/-- One iteration of the manual-splice hunk loop, threading the working line
array and the cumulative insert/delete delta of the prior hunks: locate the
hunk's window with `findBestSequenceIndex` (or positionally when the hunk has
no target lines), fall back to the clamped declared offset when no heuristic
matched, `splice` the replacement in, and update the delta. -/
def manualHunkStep (acc : List String × Int) (hunk : Hunk) : List String × Int :=
  let working := acc.1
  let offset := acc.2
  let targetLines := hunkTarget hunk
  let replacementLines := hunkReplacement hunk
  let idx0 : Int :=
    if ¬ targetLines.isEmpty then
      findBestSequenceIndex working targetLines (hunkRemoved hunk) (hunkContext hunk)
        hunk.oldStart offset
    else clampToLen working.length ((hunk.oldStart : Int) - 1 + offset)
  let index : Nat :=
    if idx0 = -1 then (clampToLen working.length ((hunk.oldStart : Int) - 1 + offset)).toNat
    else idx0.toNat
  (working.take index ++ replacementLines ++ working.drop (index + targetLines.length),
   offset + (replacementLines.length : Int) - (targetLines.length : Int))

/-- `applyPatchManually`: split into lines, splice every hunk of every patch
(the delta resets per patch), and re-join.  `none` models the `null` returned
for an empty patch list. -/
def applyPatchManually (original : String) (patches : List ParsedPatch) : Option String :=
  if patches.isEmpty then none
  else
    some (String.intercalate "\n"
      (patches.foldl (fun working p => (p.hunks.foldl manualHunkStep (working, 0)).1)
        (original.splitOn "\n")))

/-- The per-hunk block of `formatPatchInstructions`.  (The source also
computes a `fileLabel` per patch that it never uses; it is omitted here.) -/
def formatHunkStep (patchIndex hunkIndex : Nat) (hunk : Hunk) : List String :=
  let header := "• Hunk " ++ toString (patchIndex + 1) ++ "." ++ toString (hunkIndex + 1)
    ++ " near original line " ++ toString hunk.oldStart
  let removed := hunkRemoved hunk
  let added := hunkAdded hunk
  let context := hunkContext hunk
  [header]
    ++ (if ¬ context.isEmpty then
          ["  Context: " ++ String.intercalate " | " (context.take 2)] else [])
    ++ (if ¬ removed.isEmpty then ["  Remove: " ++ String.intercalate " | " removed] else [])
    ++ (if ¬ added.isEmpty then ["  Add: " ++ String.intercalate " | " added] else [])
    ++ (if removed.isEmpty ∧ ¬ added.isEmpty then
          ["  (Insert the lines above at the indicated context.)"] else [])
    ++ (if ¬ removed.isEmpty ∧ added.isEmpty then ["  (Delete the lines above.)"] else [])

def formatPatchInstructions (patches : List ParsedPatch) (pathLabel : String) : String :=
  let steps := patches.enum.flatMap (fun pi =>
    pi.2.hunks.enum.flatMap (fun hi => formatHunkStep pi.1 hi.1 hi.2))
  if steps.isEmpty then "No detailed instructions generated for " ++ pathLabel ++ "."
  else String.intercalate "\n" (("File: " ++ pathLabel) :: steps)

/-!
### The fuzz-ladder attempt runner of `applyUnifiedDiff`
-/

/-- One queued application attempt: a string-level or structured (`%objects`)
library call against a source variant, with its fuzz factor and whether CRLF
must be restored afterwards. -/
structure DiffAttempt where
  source : String
  patchString : Option String
  patchObjects : Option (List ParsedPatch)
  restoreCRLF : Bool
  fuzz : Nat

/-- The sequential structured-objects application (later patches see earlier
results); aborts on the library returning `false` (`.error none`) or throwing
(`.error (some e)`). -/
def runObjSequence (dl : DiffLib) (fuzz : Nat) : String → List ParsedPatch →
    Except (Option String) String
  | result, [] => .ok result
  | result, po :: rest =>
    match dl.applyObj result po fuzz with
    | .ok (some applied) => runObjSequence dl fuzz applied rest
    | .ok none => .error none
    | .error e => .error (some e)

/-- Run the queued attempts in order, tracking the last thrown error; the
first success (with CRLF restored when required) wins. -/
def runAttempts (dl : DiffLib) : List DiffAttempt → Option String →
    Option String × Option String
  | [], lastErr => (none, lastErr)
  | a :: rest, lastErr =>
    match a.patchString with
    | some ps =>
      match dl.applyStr a.source ps a.fuzz with
      | .ok (some applied) =>
        (some (if a.restoreCRLF then (⟨lfToCrlf applied.data⟩ : String) else applied), lastErr)
      | .ok none => runAttempts dl rest lastErr
      | .error e => runAttempts dl rest (some e)
    | none =>
      match a.patchObjects with
      | some pos =>
        if pos.isEmpty then runAttempts dl rest lastErr
        else
          match runObjSequence dl a.fuzz a.source pos with
          | .ok result =>
            (some (if a.restoreCRLF then (⟨lfToCrlf result.data⟩ : String) else result), lastErr)
          | .error none => runAttempts dl rest lastErr
          | .error (some e) => runAttempts dl rest (some e)
      | none => runAttempts dl rest lastErr

/-- `applyUnifiedDiff`: synthesize missing headers, build the sanitized
variant, queue string attempts at fuzz 0/2/4 (raw and LF-normalized) plus
structured attempts per parseable variant, run the ladder, fall back to
manual hunk splicing, and finally compose the detailed failure message. -/
def applyUnifiedDiff (dl : DiffLib) (original patch pathLabel : String) :
    Except String String :=
  let trimmed := strTrim patch
  let baseNormalized :=
    if strStartsWith trimmed "---" then trimmed
    else "--- " ++ pathLabel ++ "\n+++ " ++ pathLabel ++ "\n" ++ trimmed
  let sanitized := sanitizePatchArtifacts baseNormalized
  let variants := dedupKeepFirst [baseNormalized, sanitized]
  let hasCRLF := containsCRLF original
  let normalizedLFSource : String := if hasCRLF then ⟨crlfToLf original.data⟩ else original
  let stepVariant :
      (List DiffAttempt × Option (List ParsedPatch) × Option String) → String →
        (List DiffAttempt × Option (List ParsedPatch) × Option String) :=
    fun acc v =>
      let patchCRLF := containsCRLF v
      let normalizedVariant : String := if patchCRLF then ⟨crlfToLf v.data⟩ else v
      let strAttempts : List DiffAttempt :=
        [⟨original, some v, none, false, 0⟩,
         ⟨original, some v, none, false, 2⟩,
         ⟨original, some v, none, false, 4⟩,
         ⟨normalizedLFSource, some normalizedVariant, none, hasCRLF, 0⟩,
         ⟨normalizedLFSource, some normalizedVariant, none, hasCRLF, 2⟩,
         ⟨normalizedLFSource, some normalizedVariant, none, hasCRLF, 4⟩]
      match dl.parsePatch normalizedVariant with
      | .ok pos =>
        if pos.isEmpty then (acc.1 ++ strAttempts, acc.2.1, acc.2.2)
        else
          (acc.1 ++ strAttempts ++
            [⟨normalizedLFSource, none, some pos, hasCRLF, 0⟩,
             ⟨normalizedLFSource, none, some pos, hasCRLF, 2⟩,
             ⟨normalizedLFSource, none, some pos, hasCRLF, 4⟩],
           some pos, some normalizedVariant)
      | .error _ => (acc.1 ++ strAttempts, acc.2.1, acc.2.2)
  let built := variants.foldl stepVariant ([], none, none)
  let run := runAttempts dl built.1 none
  match run.1 with
  | some result => .ok result
  | none =>
    let manual : Option String :=
      match built.2.1 with
      | some pos =>
        match applyPatchManually normalizedLFSource pos with
        | some mr => some (if hasCRLF then (⟨lfToCrlf mr.data⟩ : String) else mr)
        | none => none
      | none => none
    match manual with
    | some result => .ok result
    | none =>
      match run.2 with
      | some lastErr =>
        match built.2.1 with
        | some pos =>
          .error ("Failed to apply patch for " ++ pathLabel ++ ": " ++ lastErr
            ++ "\nSuggested manual edit steps:\n" ++ formatPatchInstructions pos pathLabel)
        | none =>
          match built.2.2 with
          | some sv =>
            .error ("Failed to apply patch for " ++ pathLabel ++ ": " ++ lastErr
              ++ "\nSanitized patch:\n" ++ sv)
          | none => .error ("Failed to apply patch for " ++ pathLabel ++ ": " ++ lastErr)
      | none => .error ("Failed to apply patch for " ++ pathLabel)

/-- The implementer's private `applyPatch` helper: read the target (erroring
when missing), apply the unified diff, write the result. -/
def applyPatchTool (dl : DiffLib) (opts : ToolOpts) (st : FSState)
    (targetPath patch : String) : Except String (FSState × FileMutation) :=
  match FileSystemTool.read opts st targetPath with
  | .error e =>
    .error ("modify_file action referenced missing file " ++ targetPath ++ ": " ++ e)
  | .ok existing =>
    match applyUnifiedDiff dl existing patch targetPath with
    | .ok updated => FileSystemTool.write opts st targetPath updated
    | .error e => .error e

/-!
### Mutation Orchestrator (`applyActions` loop body and loop)
-/

/-- The body of the `applyActions` loop for one action: write / anchor-first
modify with diff fallback / plain-content overwrite / delete.  A failed
anchor attempt falls back to the action's patch when one is present (a
non-blank string); if that fallback also fails, the original anchor error is
rethrown. -/
def applyOneAction (re : RegexEngine) (dl : DiffLib) (opts : ToolOpts) (st : FSState)
    (action : ImplementationAction) : Except String (FSState × FileMutation) :=
  if action.path = "" then .error "Action missing path"
  else
    match action.type with
    | .write_file =>
      match action.content with
      | some content => FileSystemTool.write opts st action.path content
      | none => .error ("write_file action missing content: " ++ action.path)
    | .modify_file =>
      let hasAnchor :=
        match action.anchor with
        | some a => truthy a.exact || truthy a.regex
        | none => false
      let hasAnchorContent := action.snippet.isSome || action.replacement.isSome
      if hasAnchor && hasAnchorContent then
        match applyAnchoredModification re opts st action with
        | .ok r => .ok r
        | .error anchorErr =>
          if truthy (action.patch.map strTrim) then
            match applyPatchTool dl opts st action.path (action.patch.getD "") with
            | .ok r => .ok r
            | .error _ => .error anchorErr
          else .error anchorErr
      else if truthy (action.patch.map strTrim) then
        applyPatchTool dl opts st action.path (action.patch.getD "")
      else
        match action.content with
        | some content => FileSystemTool.write opts st action.path content
        | none =>
          .error ("modify_file action missing patch, anchor info, or content: " ++ action.path)
    | .delete_path => FileSystemTool.delete opts st action.path

/-- The `applyActions` loop: actions are processed in order, each action's
mutation appended; an error thrown by one action propagates immediately,
leaving the state already produced by the earlier actions (their writes are
on disk) and abandoning the rest. -/
def applyActions (re : RegexEngine) (dl : DiffLib) (opts : ToolOpts) (st : FSState) :
    List ImplementationAction → FSState × Except String (List FileMutation)
  | [] => (st, .ok [])
  | a :: rest =>
    match applyOneAction re dl opts st a with
    | .error e => (st, .error e)
    | .ok (st2, m) =>
      match applyActions re dl opts st2 rest with
      | (st3, .ok ms) => (st3, .ok (m :: ms))
      | (st3, .error e) => (st3, .error e)

/-!
### Statement-side helper definitions

These do not model source code; they name the concepts the specification's
claims quantify over (occurrence of a substring, per-path rollback outcome,
cleanliness of a recorded relative path) and concrete instantiations of the
external collaborators used by closed scenario theorems.
-/

/-- `pat` occurs in `content` at character index `i`. -/
def occursAt (content pat : List Char) (i : Nat) : Prop := pat <+: content.drop i

instance (content pat : List Char) (i : Nat) : Decidable (occursAt content pat i) :=
  inferInstanceAs (Decidable (pat <+: content.drop i))

/-- A regex engine that compiles every pattern and finds no match.  The
concrete scenarios below never reach the engine; any sound engine gives the
same results there. -/
def nullRegexEngine : RegexEngine := ⟨fun _ _ _ => some none⟩

/-- A diff library whose calls all throw; the concrete scenarios below never
consult it. -/
def failDiffLib : DiffLib :=
  ⟨fun _ => .error "parsePatch failed", fun _ _ _ => .error "applyPatch failed",
   fun _ _ _ => .error "applyPatch failed"⟩

/-- The absolute target `path.resolve(workspaceRoot, mutation.path)` a
rollback writes to. -/
def mutationTarget (root : List String) (m : FileMutation) : List String :=
  resolveAgainst root m.path

/-- A path segment free of the special names resolved away by
`path.normalize`. -/
def cleanSeg (s : String) : Bool := s ≠ "" && s ≠ "." && s ≠ ".."

/-- A workspace-relative path as the mutation recorder produces them:
relative, with no empty or dot segments. -/
def cleanRelPath (p : String) : Bool := !strStartsWith p "/" && (lexSegs p).all cleanSeg

/-- What the rollback protocol restores at a mutation's own target: the
recorded `before` for writes and deletes that had one, deletion for a write
of a previously missing file, and the untouched state for a delete of a
previously missing file. -/
def rollbackResultAt (root : List String) (st : FSState) (m : FileMutation) : Option String :=
  match m.action, m.before with
  | .write, some b => some b
  | .write, none => none
  | .delete, some b => some b
  | .delete, none => st (mutationTarget root m)

/-- `m` is the chronologically latest mutation for its path in `muts`. -/
def isLatestFor (muts : List FileMutation) (m : FileMutation) : Prop :=
  (muts.filter (fun x => x.path = m.path)).getLast? = some m

/-- The concrete rollback scenario used by the C3 witness: an applied write
over previous content and an applied delete of a previously missing file. -/
def rollbackScenario : List FileMutation :=
  [{ action := .write, path := "a.txt", before := some "old", after := some "new",
     applied := true },
   { action := .delete, path := "b.txt", applied := true }]

/-!
## Theorems

### Workspace Guard lemmas
-/

theorem commonPrefixLen_le (a : List String) : ∀ b, commonPrefixLen a b ≤ a.length := by
  induction a with
  | nil => intro b; cases b <;> simp [commonPrefixLen]
  | cons x xs ih =>
    intro b
    cases b with
    | nil => simp [commonPrefixLen]
    | cons y ys =>
      simp only [commonPrefixLen]
      split
      · exact Nat.succ_le_succ (ih ys)
      · simp

theorem prefix_of_commonPrefixLen (a : List String) :
    ∀ b, a.length ≤ commonPrefixLen a b → a <+: b := by
  induction a with
  | nil => intro b _; exact List.nil_prefix
  | cons x xs ih =>
    intro b h
    cases b with
    | nil => simp [commonPrefixLen] at h
    | cons y ys =>
      simp only [commonPrefixLen] at h
      split at h
      · rename_i hxy
        subst hxy
        exact List.cons_prefix_cons.mpr ⟨rfl, ih ys (Nat.le_of_succ_le_succ h)⟩
      · simp at h

theorem relSegs_head_dotdot (root normalized : List String)
    (h : ¬ root <+: normalized) :
    ∃ rest, relSegs root normalized = ".." :: rest := by
  have hlt : commonPrefixLen root normalized < root.length := by
    rcases Nat.lt_or_ge (commonPrefixLen root normalized) root.length with hlt | hge
    · exact hlt
    · exact absurd (prefix_of_commonPrefixLen root normalized hge) h
  have hsub : root.length - commonPrefixLen root normalized =
      (root.length - commonPrefixLen root normalized - 1) + 1 := by omega
  refine ⟨List.replicate (root.length - commonPrefixLen root normalized - 1) ".."
    ++ normalized.drop (commonPrefixLen root normalized), ?_⟩
  show List.replicate (root.length - commonPrefixLen root normalized) ".."
    ++ normalized.drop (commonPrefixLen root normalized) = _
  rw [hsub, List.replicate_succ, List.cons_append]
  simp

theorem strStartsWith_joinSegs_cons (s : String) (l : List String) :
    strStartsWith (joinSegs (s :: l)) s = true := by
  cases l with
  | nil => simp [joinSegs, strStartsWith, List.isPrefixOf_iff_prefix]
  | cons t ts =>
    simp only [joinSegs, strStartsWith, List.isPrefixOf_iff_prefix, String.data_append]
    rw [List.append_assoc]
    exact List.prefix_append _ _

theorem fsResolve_escape (root : List String) (targetPath : String)
    (hesc : ¬ root <+: normalizeSegs true
        (if strStartsWith targetPath "/" then lexSegs targetPath
         else root ++ lexSegs targetPath)) :
    fsResolve root targetPath = .error ("Path escapes workspace: " ++ targetPath) := by
  obtain ⟨rest, hrel⟩ := relSegs_head_dotdot root _ hesc
  have hdot : strStartsWith (joinSegs (relSegs root
      (normalizeSegs true
        (if strStartsWith targetPath "/" then lexSegs targetPath
         else root ++ lexSegs targetPath)))) ".." = true := by
    rw [hrel]; exact strStartsWith_joinSegs_cons ".." rest
  simp [fsResolve, hdot]

/-- **C1** For every target path whose normalized resolution lies outside the
workspace root, `FileSystemTool.resolve` fails with the PathEscape error
(via the `path.relative` prefix test), and `write` on such a path fails with
that same error before any filesystem state is produced. -/
theorem C1_workspace_guard_path_escape (opts : ToolOpts) (st : FSState)
    (targetPath content : String)
    (hesc : ¬ opts.root <+: normalizeSegs true
        (if strStartsWith targetPath "/" then lexSegs targetPath
         else opts.root ++ lexSegs targetPath)) :
    fsResolve opts.root targetPath = .error ("Path escapes workspace: " ++ targetPath) ∧
    FileSystemTool.write opts st targetPath content =
      .error ("Path escapes workspace: " ++ targetPath) := by
  have h := fsResolve_escape opts.root targetPath hesc
  refine ⟨h, ?_⟩
  simp [FileSystemTool.write, h, Bind.bind, Except.bind]

/-- Witness for C1: a write action targeting `../outside.txt` relative to the
workspace root raises PathEscape. -/
theorem C1_workspace_guard_path_escape_witness :
    fsResolve ["home", "user", "ws"] "../outside.txt" =
      .error ("Path escapes workspace: " ++ "../outside.txt") ∧
    FileSystemTool.write ⟨["home", "user", "ws"], false, none⟩ (fun _ => none)
        "../outside.txt" "x" =
      .error ("Path escapes workspace: " ++ "../outside.txt") :=
  C1_workspace_guard_path_escape ⟨["home", "user", "ws"], false, none⟩ (fun _ => none)
    "../outside.txt" "x" (by decide)

/-!
### C9: write idempotence
-/

/-- **C9** Re-running `write(path, content)` with the same content (not
dry-run, approval granted) applies both times, and the second mutation's
recorded `before` equals its `after`, both being the written content. -/
theorem C9_write_twice_idempotent (opts : ToolOpts) (st : FSState)
    (targetPath content : String) (resolved : List String)
    (hres : fsResolve opts.root targetPath = .ok resolved)
    (hdry : opts.dryRun = false)
    (hgrant : ∀ cb, opts.confirm = some cb → ∀ m, cb m = true) :
    ∃ st1 m1 st2 m2,
      FileSystemTool.write opts st targetPath content = .ok (st1, m1) ∧
      m1.applied = true ∧
      FileSystemTool.write opts st1 targetPath content = .ok (st2, m2) ∧
      m2.applied = true ∧ m2.before = some content ∧ m2.after = some content := by
  have hwrite : ∀ s : FSState,
      FileSystemTool.write opts s targetPath content =
        .ok (s.update resolved (some content),
          { action := .write, path := joinSegs (relSegs opts.root resolved),
            preview := some (strTake content 500), before := s resolved,
            after := some content, applied := true }) := by
    intro s
    cases hc : opts.confirm with
    | none => simp [FileSystemTool.write, hres, hdry, hc]
    | some cb => simp [FileSystemTool.write, hres, hdry, hc, hgrant cb hc]
  refine ⟨_, _, _, _, hwrite st, rfl, hwrite _, rfl, ?_, rfl⟩
  simp [FSState.update]

/-- Witness for C9 at a concrete path and content. -/
theorem C9_write_twice_idempotent_witness :
    ∃ st1 m1 st2 m2,
      FileSystemTool.write ⟨["ws"], false, none⟩ (fun _ => none) "a.txt" "hello" =
        .ok (st1, m1) ∧
      m1.applied = true ∧
      FileSystemTool.write ⟨["ws"], false, none⟩ st1 "a.txt" "hello" = .ok (st2, m2) ∧
      m2.applied = true ∧ m2.before = some "hello" ∧ m2.after = some "hello" :=
  C9_write_twice_idempotent ⟨["ws"], false, none⟩ (fun _ => none) "a.txt" "hello"
    ["ws", "a.txt"] rfl rfl (fun _cb h => nomatch h)

/-!
### C10: deleting a missing path
-/

/-- **C10** `delete(path)` on an in-workspace path that does not exist (not
dry-run, approval granted) succeeds with `action = delete`, `applied = true`
and no recorded `before` — and rolling that mutation back is a no-op. -/
theorem C10_delete_missing_path (opts : ToolOpts) (st : FSState) (targetPath : String)
    (resolved : List String)
    (hres : fsResolve opts.root targetPath = .ok resolved)
    (hmissing : st resolved = none)
    (hdry : opts.dryRun = false)
    (hgrant : ∀ cb, opts.confirm = some cb → ∀ m, cb m = true) :
    ∃ st2 m,
      FileSystemTool.delete opts st targetPath = .ok (st2, m) ∧
      m.action = .delete ∧ m.applied = true ∧ m.before = none ∧
      ∀ (root2 : List String) (anyState : FSState), rollbackOne root2 anyState m = anyState := by
  have hdel : FileSystemTool.delete opts st targetPath =
      .ok (st.update resolved none,
        { action := .delete, path := joinSegs (relSegs opts.root resolved),
          before := st resolved, applied := true }) := by
    cases hc : opts.confirm with
    | none => simp [FileSystemTool.delete, hres, hdry, hc]
    | some cb => simp [FileSystemTool.delete, hres, hdry, hc, hgrant cb hc]
  refine ⟨_, _, hdel, rfl, rfl, hmissing, ?_⟩
  intro root2 anyState
  simp [rollbackOne, hmissing]

/-- Witness for C10: deleting a file that was never created. -/
theorem C10_delete_missing_path_witness :
    ∃ st2 m,
      FileSystemTool.delete ⟨["ws"], false, none⟩ (fun _ => none) "gone.txt" =
        .ok (st2, m) ∧
      m.action = .delete ∧ m.applied = true ∧ m.before = none ∧
      ∀ (root2 : List String) (anyState : FSState), rollbackOne root2 anyState m = anyState :=
  C10_delete_missing_path ⟨["ws"], false, none⟩ (fun _ => none) "gone.txt" ["ws", "gone.txt"]
    rfl rfl rfl (fun _cb h => nomatch h)

/-!
### C8: positional fallback of manual hunk splicing
-/

/-- **C8** When no content-based heuristic locates a window for a hunk
(`findBestSequenceIndex` returns `-1`, or the hunk has no target lines), the
manual splicer places the hunk at the diff's declared `oldStart` adjusted by
the running insert/delete delta and clamped to the file's line range, and
updates the delta by replacement-line-count minus target-line-count; the
hunk loop folds left, so each later hunk sees the earlier hunks' edits. -/
theorem C8_manual_positional_splice (working : List String) (offset : Int) (hunk : Hunk)
    (h : hunkTarget hunk = [] ∨
      findBestSequenceIndex working (hunkTarget hunk) (hunkRemoved hunk) (hunkContext hunk)
        hunk.oldStart offset = -1) :
    manualHunkStep (working, offset) hunk =
      (working.take (clampToLen working.length ((hunk.oldStart : Int) - 1 + offset)).toNat
        ++ hunkReplacement hunk
        ++ working.drop ((clampToLen working.length ((hunk.oldStart : Int) - 1 + offset)).toNat
            + (hunkTarget hunk).length),
       offset + ((hunkReplacement hunk).length : Int) - ((hunkTarget hunk).length : Int)) ∧
    (∀ (w : List String) (off : Int) (h1 : Hunk) (hs : List Hunk),
      (h1 :: hs).foldl manualHunkStep (w, off) =
        hs.foldl manualHunkStep (manualHunkStep (w, off) h1)) := by
  constructor
  · have hclamp_nonneg : 0 ≤ clampToLen working.length ((hunk.oldStart : Int) - 1 + offset) := by
      unfold clampToLen; omega
    rcases h with hempty | hmiss
    · have hne : ¬ ¬ (hunkTarget hunk).isEmpty := by simp [hempty]
      simp only [manualHunkStep, hne, if_false, ite_not]
      have : ¬ clampToLen working.length ((hunk.oldStart : Int) - 1 + offset) = -1 := by omega
      simp [hempty, this]
    · by_cases hempty : hunkTarget hunk = []
      · have hne : ¬ ¬ (hunkTarget hunk).isEmpty := by simp [hempty]
        simp only [manualHunkStep, hne, if_false, ite_not]
        have : ¬ clampToLen working.length ((hunk.oldStart : Int) - 1 + offset) = -1 := by omega
        simp [hempty, this]
      · have hne : ¬ (hunkTarget hunk).isEmpty := by simpa using hempty
        simp [manualHunkStep, hne, hmiss]
  · intro w off h1 hs
    rfl

/-- Witness for C8: a one-hunk deletion whose context matches nowhere is
spliced at the clamped declared offset. -/
theorem C8_manual_positional_splice_witness :
    manualHunkStep (["a", "b"], 0) ⟨5, ["-x"]⟩ =
      (["a", "b"], -1) ∧
    (∀ (w : List String) (off : Int) (h1 : Hunk) (hs : List Hunk),
      (h1 :: hs).foldl manualHunkStep (w, off) =
        hs.foldl manualHunkStep (manualHunkStep (w, off) h1)) := by
  have h := C8_manual_positional_splice ["a", "b"] 0 ⟨5, ["-x"]⟩ (Or.inr (by decide))
  refine ⟨?_, h.2⟩
  rw [h.1]
  decide

/-!
### C6: the bracket balancer
-/

set_option maxRecDepth 8000

/-- **C6 (counterexample)** The claim quantifies over every payload with one
unmatched closing bracket removed.  Removing the interior `]` of
`{"a":[1],"b":2}` (a well-formed payload) yields `{"a":[1,"b":2}`; the
balancer's mismatch-ignoring stack scan appends `]}`, producing
`{"a":[1,"b":2}]}`, which does not parse — so the reconstruction is not
parse-equal to the original. -/
theorem C6_balancer_counterexample :
    (jsonParse "\x7b\"a\":[1],\"b\":2\x7d").isSome = true ∧
    "\x7b\"a\":[1],\"b\":2\x7d".data =
      ("\x7b\"a\":[1,\"b\":2\x7d".data.take 7) ++ ']' :: ("\x7b\"a\":[1,\"b\":2\x7d".data.drop 7) ∧
    balanceJson "\x7b\"a\":[1,\"b\":2\x7d" = "\x7b\"a\":[1,\"b\":2\x7d" ++ "]\x7d" ∧
    (jsonParse (balanceJson "\x7b\"a\":[1,\"b\":2\x7d")).isNone = true := by
  refine ⟨?_, ?_, ?_, ?_⟩ <;> decide

/-- **C6 (amended)** When the missing closing brackets are exactly the
trailing closers the scan infers (truncation at the end of the payload — in
particular a single removed final bracket), the balancer's reconstruction
parses to the original object: if the string-aware scan of `T` leaves a
non-empty bracket stack and `J = T ++ closersOf(stack)` parses to `v`, then
`balanceJson T` parses to `v`. -/
theorem C6_balancer_truncation (T J : String) (v : Json)
    (hs : (scanJson T.data).stack ≠ [])
    (hJ : J = T ++ closersOf (scanJson T.data).stack)
    (hp : jsonParse J = some v) :
    jsonParse (balanceJson T) = some v := by
  have hb : balanceJson T = T ++ closersOf (scanJson T.data).stack := by
    simp [balanceJson, hs]
  rw [hb, ← hJ]
  exact hp

/-- Witness for C6: scenario 3 — the truncated payload
`{"actions":[{"type":"write_file","path":"a.txt","content":"x"}` gets `]}`
appended and then parses. -/
theorem C6_balancer_truncation_witness :
    jsonParse (balanceJson
        "\x7b\"actions\":[\x7b\"type\":\"write_file\",\"path\":\"a.txt\",\"content\":\"x\"\x7d") =
      some (Json.obj [("actions", Json.arr [Json.obj
        [("type", Json.str "write_file"), ("path", Json.str "a.txt"),
         ("content", Json.str "x")]])]) :=
  C6_balancer_truncation
    "\x7b\"actions\":[\x7b\"type\":\"write_file\",\"path\":\"a.txt\",\"content\":\"x\"\x7d"
    "\x7b\"actions\":[\x7b\"type\":\"write_file\",\"path\":\"a.txt\",\"content\":\"x\"\x7d]\x7d"
    (Json.obj [("actions", Json.arr [Json.obj
      [("type", Json.str "write_file"), ("path", Json.str "a.txt"),
       ("content", Json.str "x")]])])
    (by decide) (by decide) (by rfl)

/-!
### C4: unique exact anchors
-/

theorem indexOfAux_sound (pat : List Char) :
    ∀ (hay : List Char) (i j : Nat), indexOfAux pat hay i = some j →
      ∃ k, j = i + k ∧ pat <+: hay.drop k := by
  intro hay
  induction hay with
  | nil =>
    intro i j h
    simp only [indexOfAux] at h
    split at h
    · rename_i hemp
      cases h
      exact ⟨0, by omega, by simp [List.isEmpty_iff.mp hemp]⟩
    · cases h
  | cons c t ih =>
    intro i j h
    simp only [indexOfAux] at h
    split at h
    · rename_i hpre
      cases h
      exact ⟨0, by omega, List.isPrefixOf_iff_prefix.mp hpre⟩
    · obtain ⟨k, hk, hp⟩ := ih (i + 1) j h
      exact ⟨k + 1, by omega, by simpa using hp⟩

theorem indexOfAux_complete (pat : List Char) (hne : pat ≠ []) :
    ∀ (hay : List Char) (k i : Nat), pat <+: hay.drop k →
      ∃ j, indexOfAux pat hay i = some j := by
  intro hay
  induction hay with
  | nil =>
    intro k i hp
    rw [List.drop_nil] at hp
    exact absurd (List.prefix_nil.mp hp) hne
  | cons c t ih =>
    intro k i hp
    by_cases hpre : pat.isPrefixOf (c :: t)
    · exact ⟨i, by simp [indexOfAux, hpre]⟩
    · cases k with
      | zero =>
        rw [List.drop_zero] at hp
        exact absurd (List.isPrefixOf_iff_prefix.mpr hp) hpre
      | succ k2 =>
        obtain ⟨j, hj⟩ := ih k2 (i + 1) (by simpa using hp)
        exact ⟨j, by simp [indexOfAux, hpre, hj]⟩

theorem occursAt_lt_length (content pat : List Char) (i : Nat) (hne : pat ≠ [])
    (h : occursAt content pat i) : i < content.length := by
  unfold occursAt at h
  by_contra hge
  push_neg at hge
  rw [List.drop_eq_nil_of_le hge] at h
  exact hne (List.prefix_nil.mp h)

theorem string_data_ne_nil (s : String) (h : s ≠ "") : s.data ≠ [] := by
  intro hd
  apply h
  cases s
  simp_all

/-- **C4** For every content string and exact-only anchor whose `exact` text
occurs verbatim exactly once in the content, `locateAnchor` returns that
unique span, and the `replace` splice produces
`before[:start] ++ replacement ++ before[end:]`. -/
theorem C4_unique_exact_anchor (re : RegexEngine) (content exact replacement : String)
    (s : Nat)
    (hne : exact ≠ "")
    (hocc : occursAt content.data exact.data s)
    (huniq : ∀ j, j ≤ content.data.length → occursAt content.data exact.data j → j = s) :
    locateAnchor re content ⟨some exact, none⟩ = some ⟨s, s + exact.data.length⟩ ∧
    spliceEdit content .replace s (s + exact.data.length) replacement "" =
      ⟨content.data.take s ++ replacement.data ++ content.data.drop (s + exact.data.length)⟩ := by
  have hpatne : exact.data ≠ [] := string_data_ne_nil exact hne
  obtain ⟨j, hj⟩ := indexOfAux_complete exact.data hpatne content.data s 0 hocc
  obtain ⟨k, hk0, hkp⟩ := indexOfAux_sound exact.data content.data 0 j hj
  have hks : k = s :=
    huniq k (Nat.le_of_lt (occursAt_lt_length content.data exact.data k hpatne hkp)) hkp
  have hidx : strIndexOf content exact = some s := by
    have hjs : j = s := by omega
    rw [strIndexOf, hj, hjs]
  refine ⟨?_, rfl⟩
  simp [locateAnchor, hne, hidx]

/-- Witness for C4: the unique occurrence of `foo` in `xfooy`. -/
theorem C4_unique_exact_anchor_witness :
    locateAnchor nullRegexEngine "xfooy" ⟨some "foo", none⟩ = some ⟨1, 1 + "foo".data.length⟩ ∧
    spliceEdit "xfooy" .replace 1 (1 + "foo".data.length) "B" "" =
      ⟨"xfooy".data.take 1 ++ "B".data ++ "xfooy".data.drop (1 + "foo".data.length)⟩ :=
  C4_unique_exact_anchor nullRegexEngine "xfooy" "foo" "B" 1 (by decide) (by decide)
    (by decide)

/-!
### C7: missing anchors fail without writing; diff fallback
-/

/-- **C7** For an anchor that none of the four strategies locates
(`locateAnchor` returns not-found on the CRLF-normalized content), the
anchored modification fails with the AnchorNotFound error — producing no
state, hence no write — and the orchestrator's per-action handler falls back
to the action's supplied diff when a non-blank patch is present, else
propagates the anchor failure (a failing patch fallback also rethrows the
anchor error). -/
theorem C7_anchor_not_found (re : RegexEngine) (dl : DiffLib) (opts : ToolOpts)
    (st : FSState) (action : ImplementationAction) (anchor : AnchorSpec) (raw : String)
    (htype : action.type = .modify_file)
    (hpath : action.path ≠ "")
    (hanchor : action.anchor = some anchor)
    (htruthy : (truthy anchor.exact || truthy anchor.regex) = true)
    (hcontent : (action.snippet.isSome || action.replacement.isSome) = true)
    (hguard1 : ¬ (anchorMode action = .replace ∧ action.replacement = none))
    (hguard2 : ¬ (anchorMode action ≠ .replace ∧ action.snippet = none))
    (hread : FileSystemTool.read opts st action.path = .ok raw)
    (hloc : locateAnchor re (if containsCRLF raw then (⟨crlfToLf raw.data⟩ : String) else raw)
        anchor = none) :
    applyAnchoredModification re opts st action =
      .error ("Unable to locate anchor for " ++ action.path) ∧
    applyOneAction re dl opts st action =
      (if truthy (action.patch.map strTrim) then
        match applyPatchTool dl opts st action.path (action.patch.getD "") with
        | .ok r => .ok r
        | .error _ => .error ("Unable to locate anchor for " ++ action.path)
      else .error ("Unable to locate anchor for " ++ action.path)) := by
  have h1 : applyAnchoredModification re opts st action =
      .error ("Unable to locate anchor for " ++ action.path) := by
    simp [applyAnchoredModification, hanchor, hguard1, hguard2, hread, hloc]
  refine ⟨h1, ?_⟩
  simp [applyOneAction, hpath, htype, hanchor, htruthy, hcontent, h1]

/-- Witness for C7: an anchor of `" "` is truthy but cannot be located in
`"hello"` by any strategy (the trimmed form is empty and the loose regex is
never built), and the action has no patch, so the anchor error propagates. -/
theorem C7_anchor_not_found_witness :
    applyAnchoredModification nullRegexEngine ⟨["ws"], false, none⟩
        (fun q => if q = ["ws", "f.txt"] then some "hello" else none)
        ⟨.modify_file, "f.txt", none, none, none, some ⟨some " ", none⟩, some "Y", none, none⟩ =
      .error ("Unable to locate anchor for " ++ "f.txt") ∧
    applyOneAction nullRegexEngine failDiffLib ⟨["ws"], false, none⟩
        (fun q => if q = ["ws", "f.txt"] then some "hello" else none)
        ⟨.modify_file, "f.txt", none, none, none, some ⟨some " ", none⟩, some "Y", none, none⟩ =
      .error ("Unable to locate anchor for " ++ "f.txt") := by
  have h := C7_anchor_not_found nullRegexEngine failDiffLib ⟨["ws"], false, none⟩
    (fun q => if q = ["ws", "f.txt"] then some "hello" else none)
    ⟨.modify_file, "f.txt", none, none, none, some ⟨some " ", none⟩, some "Y", none, none⟩
    ⟨some " ", none⟩ "hello" rfl (by decide) rfl (by decide) (by decide) (by decide)
    (by decide) rfl (by decide)
  exact ⟨h.1, by rw [h.2]; rfl⟩

/-!
### C2: a failing action aborts its payload
-/

/-- **C2 (counterexample)** With two sibling actions where the first fails
(anchor not locatable, no patch fallback), `applyActions` returns the
first action's error and never processes the second action — the write to
`g.txt` that succeeds when the sibling runs alone is absent, and no
failed-vs-succeeded report is produced. -/
theorem C2_sibling_actions_counterexample :
    (applyActions nullRegexEngine failDiffLib ⟨["ws"], false, none⟩
        (fun q => if q = ["ws", "f.txt"] then some "hello" else none)
        [⟨.modify_file, "f.txt", none, none, none, some ⟨some " ", none⟩, some "Y", none, none⟩,
         ⟨.write_file, "g.txt", some "new", none, none, none, none, none, none⟩]).2 =
      .error ("Unable to locate anchor for " ++ "f.txt") ∧
    (applyActions nullRegexEngine failDiffLib ⟨["ws"], false, none⟩
        (fun q => if q = ["ws", "f.txt"] then some "hello" else none)
        [⟨.write_file, "g.txt", some "new", none, none, none, none, none, none⟩]).2 =
      .ok [{ action := .write, path := "g.txt", preview := some "new", before := none,
             after := some "new", applied := true }] :=
  ⟨rfl, rfl⟩

/-- **C2 (amended)** Per-action failures are not caught at the action level:
the first failing action's error aborts the processing of the remaining
sibling actions in the payload and propagates to the run-level catch (the
implementer run reports overall failure; earlier actions' writes remain on
disk but no mutation list is reported).  Processing continues past an action
only when it succeeds. -/
theorem C2_action_failure_aborts_payload (re : RegexEngine) (dl : DiffLib)
    (opts : ToolOpts) (st : FSState) (a : ImplementationAction)
    (rest : List ImplementationAction) :
    (∀ e, applyOneAction re dl opts st a = .error e →
      applyActions re dl opts st (a :: rest) = (st, .error e)) ∧
    (∀ st2 m, applyOneAction re dl opts st a = .ok (st2, m) →
      applyActions re dl opts st (a :: rest) =
        (match applyActions re dl opts st2 rest with
         | (st3, .ok ms) => (st3, .ok (m :: ms))
         | (st3, .error e) => (st3, .error e))) := by
  constructor
  · intro e he
    simp [applyActions, he]
  · intro st2 m hm
    simp [applyActions, hm]

/-- Witness for C2 (amended): the failing first action of the concrete
scenario aborts the two-action payload with its own error. -/
theorem C2_action_failure_aborts_payload_witness :
    applyActions nullRegexEngine failDiffLib ⟨["ws"], false, none⟩
        (fun q => if q = ["ws", "f.txt"] then some "hello" else none)
        [⟨.modify_file, "f.txt", none, none, none, some ⟨some " ", none⟩, some "Y", none, none⟩,
         ⟨.write_file, "g.txt", some "new", none, none, none, none, none, none⟩] =
      ((fun q => if q = ["ws", "f.txt"] then some "hello" else none : FSState),
       .error ("Unable to locate anchor for " ++ "f.txt")) :=
  (C2_action_failure_aborts_payload nullRegexEngine failDiffLib ⟨["ws"], false, none⟩
      (fun q => if q = ["ws", "f.txt"] then some "hello" else none)
      ⟨.modify_file, "f.txt", none, none, none, some ⟨some " ", none⟩, some "Y", none, none⟩
      [⟨.write_file, "g.txt", some "new", none, none, none, none, none, none⟩]).1
    ("Unable to locate anchor for " ++ "f.txt") rfl

/-!
### C5: the recovery cascade on well-formed payloads
-/

theorem repairAttemptStep_extends (jr : String → String)
    (acc : List (Option Json) × List String) (item : String) :
    ∃ ex, (repairAttemptStep jr acc item).1 = acc.1 ++ ex := by
  unfold repairAttemptStep
  by_cases h : item ∈ acc.2
  · exact ⟨[], by simp [h]⟩
  · exact ⟨[jsonParse item, jsonParse (jr item), jsonParse (balanceJson item),
      jsonParse (jr (balanceJson item))], by simp [h]⟩

theorem foldl_repairAttemptStep_extends (jr : String → String) :
    ∀ (items : List String) (l : List (Option Json)) (s : List String),
      ∃ ex, (items.foldl (repairAttemptStep jr) (l, s)).1 = l ++ ex := by
  intro items
  induction items with
  | nil => intro l s; exact ⟨[], by simp⟩
  | cons item rest ih =>
    intro l s
    obtain ⟨e1, he1⟩ := repairAttemptStep_extends jr (l, s) item
    obtain ⟨e2, he2⟩ := ih (repairAttemptStep jr (l, s) item).1
      (repairAttemptStep jr (l, s) item).2
    refine ⟨e1 ++ e2, ?_⟩
    simp only [List.foldl_cons]
    rw [← Prod.mk.eta (p := repairAttemptStep jr (l, s) item)] at he2 ⊢
    rw [he2, he1, List.append_assoc]

theorem repairAttempts_head (jr : String → String) (candidate raw : String) :
    ∃ rest, repairAttempts jr candidate raw = jsonParse candidate :: rest := by
  unfold repairAttempts
  cases hextr : extractBestEffortJson raw with
  | none =>
    obtain ⟨ex, hex⟩ := foldl_repairAttemptStep_extends jr (extractJsonCandidates raw)
      (repairBaseAttempts jr candidate raw) [candidate, balanceJson candidate]
    rw [hex]
    exact ⟨[jsonParse (balanceJson candidate), jsonParse (jr candidate),
      jsonParse (jr (balanceJson candidate)), jsonParse (jr raw),
      jsonParse (jr (balanceJson raw))] ++ ex, by simp [repairBaseAttempts]⟩
  | some e =>
    obtain ⟨ex, hex⟩ := foldl_repairAttemptStep_extends jr (extractJsonCandidates raw)
      (repairBaseAttempts jr candidate raw ++
        [jsonParse e, jsonParse (jr e), jsonParse (balanceJson e), jsonParse (jr (balanceJson e))])
      [candidate, balanceJson candidate, e, balanceJson e]
    rw [hex]
    exact ⟨[jsonParse (balanceJson candidate), jsonParse (jr candidate),
      jsonParse (jr (balanceJson candidate)), jsonParse (jr raw),
      jsonParse (jr (balanceJson raw)), jsonParse e, jsonParse (jr e),
      jsonParse (balanceJson e), jsonParse (jr (balanceJson e))] ++ ex,
      by simp [repairBaseAttempts]⟩

/-- The cascade's first attempt is a plain `JSON.parse` of the sanitized
candidate: when that parses, its value is returned. -/
theorem parseWithRepair_first_parse (jr : String → String) (candidate raw : String)
    (v : Json) (h : jsonParse candidate = some v) :
    parseWithRepair jr candidate raw = .ok v := by
  obtain ⟨rest, hrest⟩ := repairAttempts_head jr candidate raw
  unfold parseWithRepair
  rw [hrest, h]
  simp [List.findSome?]

theorem flatMap_eq_self {α : Type} (f : α → List α) :
    ∀ (l : List α), (∀ a ∈ l, f a = [a]) → l.flatMap f = l := by
  intro l
  induction l with
  | nil => intro _; rfl
  | cons a rest ih =>
    intro h
    rw [List.flatMap_cons, h a (by simp), ih (fun x hx => h x (by simp [hx]))]
    rfl

theorem map_keep_of_no_key (k : String) (v : Json) :
    ∀ (rest : List (String × Json)), (∀ f ∈ rest, f.1 ≠ k) →
      rest.map (fun f => if f.1 = k then (k, v) else f) = rest := by
  intro rest
  induction rest with
  | nil => intro _; rfl
  | cons a t ih =>
    intro h
    simp only [List.map_cons, if_neg (h a (by simp)), List.cons.injEq]
    exact ⟨trivial, ih (fun x hx => h x (by simp [hx]))⟩

theorem objInsert_self (k : String) (v : Json) :
    ∀ (fields : List (String × Json)), (fields.map Prod.fst).Nodup →
      fields.find? (fun f => f.1 = k) = some (k, v) →
      objInsert fields k v = fields := by
  intro fields
  induction fields with
  | nil => intro _ hfind; simp [List.find?] at hfind
  | cons a rest ih =>
    intro hnodup hfind
    have hnodup2 : (rest.map Prod.fst).Nodup := (List.nodup_cons.mp hnodup).2
    have hnotin : a.1 ∉ rest.map Prod.fst := (List.nodup_cons.mp hnodup).1
    by_cases hk : a.1 = k
    · have ha : a = (k, v) := by
        rw [List.find?_cons_of_pos _ (by simp [hk])] at hfind
        exact (Option.some.injEq _ _).mp hfind
      have hrest : ∀ f ∈ rest, f.1 ≠ k := by
        intro f hf heq
        exact hnotin (by
          rw [hk]
          exact heq ▸ List.mem_map_of_mem Prod.fst hf)
      unfold objInsert
      rw [if_pos (by simp [hk])]
      simp only [List.map_cons, if_pos hk]
      rw [map_keep_of_no_key k v rest hrest, ← ha]
    · rw [List.find?_cons_of_neg _ (by simp [hk])] at hfind
      have hmem : (k, v) ∈ rest := List.mem_of_find?_eq_some hfind
      have hany : rest.any (fun f => f.1 = k) = true := by
        rw [List.any_eq_true]
        exact ⟨(k, v), hmem, by simp⟩
      have hih := ih hnodup2 hfind
      unfold objInsert at hih ⊢
      rw [if_pos (by simp [List.any_cons, hany, hk])]
      rw [if_pos hany] at hih
      simp only [List.map_cons, if_neg hk, List.cons.injEq]
      exact ⟨trivial, hih⟩

/-- **C5 (counterexample)** A well-formed payload whose `notes` string
contains an em dash parses as-is, yet the recovery engine first rewrites the
dash to a hyphen (`normalizeJsonText` runs before any parse attempt), so the
returned object differs from the parsed input — the cascade is not the
identity byte-for-byte on string contents.  (The first parse attempt already
succeeds, so the abstract `jsonrepair` is instantiated with `id`.) -/
theorem C5_recovery_not_identity_counterexample :
    jsonParse "\x7b\"actions\":[],\"notes\":\"—\"\x7d" =
      some (Json.obj [("actions", Json.arr []), ("notes", Json.str "—")]) ∧
    parsePayloadJson id "\x7b\"actions\":[],\"notes\":\"—\"\x7d" =
      .ok (Json.obj [("actions", Json.arr []), ("notes", Json.str "-")]) ∧
    Json.str "—" ≠ Json.str "-" := by
  refine ⟨rfl, ?_, ?_⟩
  · have h : jsonParse (sanitizeJson "\x7b\"actions\":[],\"notes\":\"—\"\x7d") =
        some (Json.obj [("actions", Json.arr []), ("notes", Json.str "-")]) := by rfl
    have h2 := parseWithRepair_first_parse id (sanitizeJson "\x7b\"actions\":[],\"notes\":\"—\"\x7d")
      "\x7b\"actions\":[],\"notes\":\"—\"\x7d" _ h
    simp only [parsePayloadJson, h2]
    rfl
  · intro h
    injection h with h2
    exact absurd h2 (by decide)

/-- **C5 (amended)** The recovery cascade is the identity on well-formed
payloads that are already free of the typographic artifacts
`normalizeJsonText` rewrites (smart quotes, em/en dashes, tabs, CRLF,
zero-width/control characters, non-breaking spaces) and are given trimmed
and object-initial: for every `jsonrepair` implementation the engine returns
exactly the `JSON.parse` value (the in-place `patches` expansion of the
`actions` array being the identity when no action carries a non-empty
`patches` array). -/
theorem C5_recovery_identity_on_clean_payloads (raw : String)
    (fields : List (String × Json)) (acts : List Json)
    (hnorm : normalizeJsonText raw true = raw)
    (hstart : strStartsWith raw "\x7b" = true)
    (hparse : jsonParse raw = some (Json.obj fields))
    (hacts : (Json.obj fields).getField "actions" = some (Json.arr acts))
    (hnodup : (fields.map Prod.fst).Nodup)
    (hnopatches : ∀ a ∈ acts, normalizeActionJson a = [a]) :
    ∀ jr, parsePayloadJson jr raw = .ok (Json.obj fields) := by
  intro jr
  obtain ⟨t, ht⟩ : ∃ t, raw.data = '\x7b' :: t := by
    have h := hstart
    unfold strStartsWith at h
    rw [List.isPrefixOf_iff_prefix] at h
    obtain ⟨u, hu⟩ := h
    exact ⟨u, by simpa using hu.symm⟩
  have hfence : strStartsWith raw "```" = false := by
    unfold strStartsWith
    rw [ht]
    simp [List.isPrefixOf]
  have hsan : sanitizeJson raw = raw := by
    simp [sanitizeJson, hnorm, hfence, hstart]
  have hpwr : parseWithRepair jr (sanitizeJson raw) raw = .ok (Json.obj fields) := by
    rw [hsan]
    exact parseWithRepair_first_parse jr raw raw _ hparse
  have hacts2 : (fields.find? (fun f => f.1 = "actions")).map (fun f => f.2) =
      some (Json.arr acts) := by
    simpa [Json.getField] using hacts
  have hfind : fields.find? (fun f => f.1 = "actions") = some ("actions", Json.arr acts) := by
    cases hf : fields.find? (fun f => f.1 = "actions") with
    | none => rw [hf] at hacts2; cases hacts2
    | some entry =>
      rw [hf] at hacts2
      have hpred := List.find?_some hf
      have h1 : entry.1 = "actions" := by simpa using hpred
      have h2 : entry.2 = Json.arr acts := by simpa using hacts2
      rw [← h1, ← h2]
  have hflat : acts.flatMap normalizeActionJson = acts := flatMap_eq_self _ acts hnopatches
  have hset : (Json.obj fields).objSet "actions" (Json.arr acts) = Json.obj fields := by
    show Json.obj (objInsert fields "actions" (Json.arr acts)) = Json.obj fields
    rw [objInsert_self "actions" (Json.arr acts) fields hnodup hfind]
  simp [parsePayloadJson, hpwr, hacts, hflat, hset]

/-- Witness for C5 (amended): a clean well-formed payload is returned
unchanged (with `jsonrepair` instantiated by `id`; it is never consulted). -/
theorem C5_recovery_identity_on_clean_payloads_witness :
    parsePayloadJson id "\x7b\"actions\":[],\"notes\":\"ok\"\x7d" =
      .ok (Json.obj [("actions", Json.arr []), ("notes", Json.str "ok")]) :=
  C5_recovery_identity_on_clean_payloads "\x7b\"actions\":[],\"notes\":\"ok\"\x7d"
    [("actions", Json.arr []), ("notes", Json.str "ok")] []
    (by decide) (by decide) rfl rfl (by decide) (fun a ha => absurd ha (List.not_mem_nil a))
    id

/-!
### C3: the rollback protocol

Path cleanliness lemmas: on segment lists free of `""`, `"."` and `".."`,
`path.normalize` is the identity, so resolved rollback targets are just
`root ++ lexSegs path`, and distinct recorded paths give distinct targets.
-/

theorem normFold_clean (s : String) (acc : List String) (h : cleanSeg s = true) :
    normFold true acc s = s :: acc := by
  unfold cleanSeg at h
  simp only [Bool.and_eq_true, decide_eq_true_eq, ne_eq] at h
  unfold normFold
  rw [if_neg (by tauto), if_neg (by tauto)]

theorem foldl_normFold_clean :
    ∀ (l : List String) (acc : List String), (∀ s ∈ l, cleanSeg s = true) →
      l.foldl (normFold true) acc = l.reverse ++ acc := by
  intro l
  induction l with
  | nil => intro acc _; simp
  | cons s t ih =>
    intro acc h
    rw [List.foldl_cons, normFold_clean s acc (h s (by simp)),
      ih (s :: acc) (fun x hx => h x (by simp [hx]))]
    simp

theorem normalizeSegs_clean (l : List String) (h : ∀ s ∈ l, cleanSeg s = true) :
    normalizeSegs true l = l := by
  unfold normalizeSegs
  rw [foldl_normFold_clean l [] h]
  simp

theorem mutationTarget_clean (root : List String) (m : FileMutation)
    (hroot : ∀ s ∈ root, cleanSeg s = true)
    (hm : cleanRelPath m.path = true) :
    mutationTarget root m = root ++ lexSegs m.path := by
  unfold cleanRelPath at hm
  simp only [Bool.and_eq_true, Bool.not_eq_true', List.all_eq_true] at hm
  unfold mutationTarget resolveAgainst
  rw [if_neg (by simp [hm.1])]
  refine normalizeSegs_clean _ ?_
  intro s hs
  rcases List.mem_append.mp hs with h1 | h2
  · exact hroot s h1
  · exact hm.2 s h2

theorem lexSegsAux_ne_nil : ∀ (cs : List Char) (cur : List Char), lexSegsAux cur cs ≠ [] := by
  intro cs
  induction cs with
  | nil => intro cur; simp [lexSegsAux]
  | cons c t ih =>
    intro cur
    unfold lexSegsAux
    split
    · simp
    · exact ih (c :: cur)

theorem joinSegs_lexSegsAux :
    ∀ (cs : List Char) (cur : List Char),
      (joinSegs (lexSegsAux cur cs)).data = cur.reverse ++ cs := by
  intro cs
  induction cs with
  | nil => intro cur; simp [lexSegsAux, joinSegs]
  | cons c t ih =>
    intro cur
    unfold lexSegsAux
    by_cases hc : c = '/'
    · rw [if_pos hc]
      obtain ⟨x, xs, hx⟩ : ∃ x xs, lexSegsAux [] t = x :: xs := by
        cases hl : lexSegsAux ([] : List Char) t with
        | nil => exact absurd hl (lexSegsAux_ne_nil t [])
        | cons x xs => exact ⟨x, xs, rfl⟩
      rw [hx]
      show ((⟨cur.reverse⟩ : String) ++ "/" ++ joinSegs (x :: xs)).data = _
      have hjoin : (joinSegs (x :: xs)).data = t := by rw [← hx]; simpa using ih []
      simp [String.data_append, hjoin, hc]
    · rw [if_neg hc, ih (c :: cur)]
      simp

theorem lexSegs_inj (p1 p2 : String) (h : lexSegs p1 = lexSegs p2) : p1 = p2 := by
  have h1 := joinSegs_lexSegsAux p1.data []
  have h2 := joinSegs_lexSegsAux p2.data []
  simp only [List.reverse_nil, List.nil_append] at h1 h2
  unfold lexSegs at h
  have hd : p1.data = p2.data := by rw [← h1, ← h2, h]
  cases p1
  cases p2
  exact congrArg String.mk hd

theorem mutationTarget_inj (root : List String) (m1 m2 : FileMutation)
    (hroot : ∀ s ∈ root, cleanSeg s = true)
    (h1 : cleanRelPath m1.path = true) (h2 : cleanRelPath m2.path = true)
    (hne : m1.path ≠ m2.path) :
    mutationTarget root m1 ≠ mutationTarget root m2 := by
  rw [mutationTarget_clean root m1 hroot h1, mutationTarget_clean root m2 hroot h2]
  intro h
  exact hne (lexSegs_inj _ _ (List.append_cancel_left h))

/-!
Pointwise behaviour of one rollback step.
-/

theorem rollbackOne_apply_ne (root : List String) (st : FSState) (m : FileMutation)
    (q : List String) (hq : q ≠ mutationTarget root m) :
    rollbackOne root st m q = st q := by
  unfold mutationTarget at hq
  cases hact : m.action <;> cases hb : m.before <;>
    simp [rollbackOne, hact, hb, FSState.update, hq]

theorem rollbackOne_apply_self (root : List String) (st : FSState) (m : FileMutation) :
    rollbackOne root st m (mutationTarget root m) = rollbackResultAt root st m := by
  cases hact : m.action <;> cases hb : m.before <;>
    simp [rollbackOne, rollbackResultAt, hact, hb, FSState.update, mutationTarget]

theorem foldl_rollbackStep_ne (root : List String) (f : FileMutation → Bool) :
    ∀ (l : List FileMutation) (st : FSState) (q : List String),
      (∀ m ∈ l, mutationTarget root m ≠ q) →
      l.foldl (rollbackStep root f) st q = st q := by
  intro l
  induction l with
  | nil => intro st q _; rfl
  | cons m t ih =>
    intro st q h
    rw [List.foldl_cons, ih _ q (fun x hx => h x (by simp [hx]))]
    unfold rollbackStep
    by_cases hf : f m
    · simp [hf]
    · simp [hf, rollbackOne_apply_ne root st m q (Ne.symm (h m (by simp)))]

theorem foldl_rollbackStep_unique (root : List String) (f : FileMutation → Bool)
    (l1 l2 : List FileMutation) (m : FileMutation) (st : FSState)
    (h1 : ∀ x ∈ l1, mutationTarget root x ≠ mutationTarget root m)
    (h2 : ∀ x ∈ l2, mutationTarget root x ≠ mutationTarget root m) :
    ((l1 ++ m :: l2).foldl (rollbackStep root f) st) (mutationTarget root m) =
      (if f m then st (mutationTarget root m) else rollbackResultAt root st m) := by
  rw [List.foldl_append, List.foldl_cons]
  have hst1 : (l1.foldl (rollbackStep root f) st) (mutationTarget root m) =
      st (mutationTarget root m) := foldl_rollbackStep_ne root f l1 st _ h1
  rw [foldl_rollbackStep_ne root f l2 _ _ h2]
  by_cases hf : f m
  · have hstep : rollbackStep root f (l1.foldl (rollbackStep root f) st) m =
        l1.foldl (rollbackStep root f) st := by
      unfold rollbackStep
      rw [if_pos hf]
    rw [hstep, if_pos hf, hst1]
  · have hstep : rollbackStep root f (l1.foldl (rollbackStep root f) st) m =
        rollbackOne root (l1.foldl (rollbackStep root f) st) m := by
      unfold rollbackStep
      rw [if_neg hf]
    rw [hstep, if_neg hf, rollbackOne_apply_self]
    cases hact : m.action <;> cases hb : m.before <;>
      simp [rollbackResultAt, hact, hb, hst1]

/-!
Structure of the `latestByPath` map.
-/

theorem mapSetMutation_subset (acc : List FileMutation) (m x : FileMutation)
    (hx : x ∈ mapSetMutation acc m) : x ∈ acc ∨ x = m := by
  unfold mapSetMutation at hx
  split at hx
  · obtain ⟨y, hy, hyx⟩ := List.mem_map.mp hx
    by_cases h : y.path = m.path
    · right
      rw [if_pos h] at hyx
      exact hyx.symm
    · left
      rw [if_neg h] at hyx
      rwa [← hyx]
  · rcases List.mem_append.mp hx with h1 | h2
    · exact Or.inl h1
    · exact Or.inr (by simpa using h2)

theorem latestByPath_subset :
    ∀ (muts acc : List FileMutation) (x : FileMutation),
      x ∈ muts.foldl mapSetMutation acc → x ∈ acc ∨ x ∈ muts := by
  intro muts
  induction muts with
  | nil => intro acc x h; exact Or.inl h
  | cons m t ih =>
    intro acc x h
    rcases ih (mapSetMutation acc m) x h with h1 | h2
    · rcases mapSetMutation_subset acc m x h1 with h3 | h4
      · exact Or.inl h3
      · exact Or.inr (by simp [h4])
    · exact Or.inr (by simp [h2])

theorem mapSetMutation_paths_nodup (acc : List FileMutation) (m : FileMutation)
    (h : (acc.map (fun x => x.path)).Nodup) :
    ((mapSetMutation acc m).map (fun x => x.path)).Nodup := by
  unfold mapSetMutation
  split
  · have heq : (acc.map (fun x => if x.path = m.path then m else x)).map (fun x => x.path) =
        acc.map (fun x => x.path) := by
      rw [List.map_map]
      apply List.map_congr_left
      intro x _
      by_cases hx : x.path = m.path
      · simp [hx]
      · simp [hx]
    rwa [heq]
  · rename_i hany
    rw [List.map_append]
    have hnotin : m.path ∉ acc.map (fun x => x.path) := by
      intro hmem
      obtain ⟨y, hy, hyp⟩ := List.mem_map.mp hmem
      exact hany (List.any_eq_true.mpr ⟨y, hy, by simp [hyp]⟩)
    simp only [List.map_cons, List.map_nil]
    exact List.Nodup.append h (List.nodup_singleton _)
      (by simpa [List.disjoint_singleton] using hnotin)

theorem latestByPath_paths_nodup :
    ∀ (muts acc : List FileMutation), (acc.map (fun x => x.path)).Nodup →
      ((muts.foldl mapSetMutation acc).map (fun x => x.path)).Nodup := by
  intro muts
  induction muts with
  | nil => intro acc h; exact h
  | cons m t ih => intro acc h; exact ih _ (mapSetMutation_paths_nodup acc m h)

theorem find_replace_eq (m : FileMutation) :
    ∀ (acc : List FileMutation), acc.any (fun x => x.path = m.path) = true →
      (acc.map (fun x => if x.path = m.path then m else x)).find?
        (fun x => x.path = m.path) = some m := by
  intro acc
  induction acc with
  | nil => intro h; simp at h
  | cons a t ih =>
    intro h
    by_cases ha : a.path = m.path
    · simp only [List.map_cons, if_pos ha]
      rw [List.find?_cons_of_pos _ (by simp)]
    · simp only [List.map_cons, if_neg ha]
      rw [List.find?_cons_of_neg _ (by simp [ha])]
      refine ih ?_
      rcases List.any_eq_true.mp h with ⟨y, hy, hyp⟩
      rcases List.mem_cons.mp hy with h1 | h2
      · exact absurd (by simpa using hyp) (h1 ▸ ha)
      · exact List.any_eq_true.mpr ⟨y, h2, hyp⟩

theorem find_replace_ne (m : FileMutation) (k : String) (hk : ¬ (m.path = k)) :
    ∀ (acc : List FileMutation),
      (acc.map (fun x => if x.path = m.path then m else x)).find? (fun x => x.path = k) =
        acc.find? (fun x => x.path = k) := by
  intro acc
  induction acc with
  | nil => rfl
  | cons a t ih =>
    by_cases ha : a.path = m.path
    · simp only [List.map_cons, if_pos ha]
      rw [List.find?_cons_of_neg _ (by simp [hk]),
        List.find?_cons_of_neg _ (by simp [ha, hk])]
      exact ih
    · simp only [List.map_cons, if_neg ha]
      by_cases hak : a.path = k
      · rw [List.find?_cons_of_pos _ (by simp [hak]),
          List.find?_cons_of_pos _ (by simp [hak])]
      · rw [List.find?_cons_of_neg _ (by simp [hak]),
          List.find?_cons_of_neg _ (by simp [hak])]
        exact ih

theorem mapSetMutation_find (acc : List FileMutation) (m : FileMutation) (k : String) :
    (mapSetMutation acc m).find? (fun x => x.path = k) =
      (if m.path = k then some m else acc.find? (fun x => x.path = k)) := by
  unfold mapSetMutation
  by_cases hk : m.path = k
  · subst hk
    split
    · rename_i hany
      rw [if_pos rfl]
      exact find_replace_eq m acc hany
    · rename_i hany
      rw [if_pos rfl, List.find?_append]
      have hnone : acc.find? (fun x => x.path = m.path) = none := by
        rw [List.find?_eq_none]
        intro x hx
        simp only [decide_eq_true_eq]
        intro hxp
        exact hany (List.any_eq_true.mpr ⟨x, hx, by simp [hxp]⟩)
      rw [hnone]
      simp [List.find?]
  · split
    · exact find_replace_ne m k hk acc
    · rw [List.find?_append]
      have hsingle : ([m] : List FileMutation).find? (fun x => x.path = k) = none := by
        simp [List.find?, hk]
      rw [hsingle]
      cases acc.find? (fun x => x.path = k) <;> simp

theorem getLast?_filter_cons_some (p : FileMutation → Bool) (m x : FileMutation)
    (t : List FileMutation) (h : (t.filter p).getLast? = some x) :
    ((m :: t).filter p).getLast? = some x := by
  obtain ⟨y, ys, hy⟩ : ∃ y ys, t.filter p = y :: ys := by
    cases hl : t.filter p with
    | nil => rw [hl] at h; cases h
    | cons y ys => exact ⟨y, ys, rfl⟩
  rw [List.filter_cons]
  split
  · rw [hy, List.getLast?_cons_cons, ← hy, h]
  · exact h

theorem latestByPath_find :
    ∀ (muts acc : List FileMutation) (k : String),
      (muts.foldl mapSetMutation acc).find? (fun x => x.path = k) =
        (match (muts.filter (fun x => x.path = k)).getLast? with
         | some m => some m
         | none => acc.find? (fun x => x.path = k)) := by
  intro muts
  induction muts with
  | nil => intro acc k; simp
  | cons m t ih =>
    intro acc k
    rw [List.foldl_cons, ih (mapSetMutation acc m) k]
    cases hlast : (t.filter (fun x => x.path = k)).getLast? with
    | some x =>
      rw [getLast?_filter_cons_some _ m x t hlast]
    | none =>
      have hnil : t.filter (fun x => x.path = k) = [] := by
        cases hl : t.filter (fun x => x.path = k) with
        | nil => rfl
        | cons y ys =>
          rw [hl] at hlast
          exact absurd hlast (by simp [List.getLast?_eq_getLast])
      rw [mapSetMutation_find acc m k, List.filter_cons]
      by_cases hmk : m.path = k
      · rw [if_pos (by simp [hmk]), hnil]
        simp [hmk]
      · rw [if_neg (by simp [hmk]), hnil]
        simp [hmk]

theorem latestByPath_find_nil (muts : List FileMutation) (k : String) :
    (latestByPath muts).find? (fun x => x.path = k) =
      (muts.filter (fun x => x.path = k)).getLast? := by
  unfold latestByPath
  rw [latestByPath_find muts [] k]
  cases (muts.filter (fun x => x.path = k)).getLast? <;> simp [List.find?]

theorem foldl_mapSetMutation_append :
    ∀ (muts acc : List FileMutation),
      (∀ m ∈ muts, ∀ a ∈ acc, a.path ≠ m.path) →
      muts.Pairwise (fun m1 m2 => m1.path ≠ m2.path) →
      muts.foldl mapSetMutation acc = acc ++ muts := by
  intro muts
  induction muts with
  | nil => intro acc _ _; simp
  | cons m t ih =>
    intro acc hdisj hpair
    rw [List.foldl_cons]
    have hnotany : ¬ (acc.any (fun x => x.path = m.path) = true) := by
      rw [List.any_eq_true]
      rintro ⟨x, hx, hxp⟩
      exact hdisj m (by simp) x hx (by simpa using hxp)
    have hset : mapSetMutation acc m = acc ++ [m] := by
      unfold mapSetMutation
      rw [if_neg hnotany]
    rw [hset, ih (acc ++ [m]) ?_ (List.pairwise_cons.mp hpair).2]
    · simp
    · intro x hx a ha
      rcases List.mem_append.mp ha with h1 | h2
      · exact hdisj x (by simp [hx]) a h1
      · have hm : a = m := by simpa using h2
        subst hm
        exact (List.pairwise_cons.mp hpair).1 x hx

theorem foldl_rollbackStep_of_mem (root : List String) (ioFails : FileMutation → Bool)
    (st : FSState) (l : List FileMutation) (m : FileMutation)
    (hroot : ∀ s ∈ root, cleanSeg s = true)
    (hclean : ∀ x ∈ l, cleanRelPath x.path = true)
    (hpair : l.Pairwise (fun m1 m2 => m1.path ≠ m2.path))
    (hm : m ∈ l) :
    (l.reverse.foldl (rollbackStep root ioFails) st) (mutationTarget root m) =
      (if ioFails m then st (mutationTarget root m) else rollbackResultAt root st m) := by
  have hmrev : m ∈ l.reverse := List.mem_reverse.mpr hm
  obtain ⟨L1, L2, hsplit⟩ := List.append_of_mem hmrev
  have hpairrev : (l.reverse).Pairwise (fun m1 m2 => m1.path ≠ m2.path) := by
    rw [List.pairwise_reverse]
    exact hpair.imp (fun h => h.symm)
  rw [hsplit] at hpairrev
  have hfacts := List.pairwise_append.mp hpairrev
  have hL1 : ∀ x ∈ L1, x.path ≠ m.path := fun x hx => hfacts.2.2 x hx m (by simp)
  have hL2 : ∀ x ∈ L2, x.path ≠ m.path := by
    intro x hx
    exact ((List.pairwise_cons.mp hfacts.2.1).1 x hx).symm
  have hmemL : ∀ x, x ∈ L1 ∨ x ∈ L2 → x ∈ l := by
    intro x hx
    apply List.mem_reverse.mp
    rw [hsplit]
    rcases hx with h1 | h2
    · exact List.mem_append.mpr (Or.inl h1)
    · exact List.mem_append.mpr (Or.inr (by simp [h2]))
  have htargets : ∀ x, x ∈ L1 ∨ x ∈ L2 →
      mutationTarget root x ≠ mutationTarget root m := by
    intro x hx
    refine mutationTarget_inj root x m hroot (hclean x (hmemL x hx)) (hclean m hm) ?_
    rcases hx with h1 | h2
    · exact hL1 x h1
    · exact hL2 x h2
  rw [hsplit]
  exact foldl_rollbackStep_unique root ioFails L1 L2 m st
    (fun x hx => htargets x (Or.inl hx)) (fun x hx => htargets x (Or.inr hx))

/-- **C3** The rollback protocol: (i) paths no recorded mutation targets are
left untouched; (ii) at the target of the chronologically latest mutation for
a path (the dedupe-keep-latest, reverse-replay semantics), the final state is
that mutation's restoration — `before` for a write or delete that recorded
one, deletion for a write of a previously missing file, untouched for a
delete with no `before` — unless that one path's own replay fails, in which
case only that path keeps its pre-rollback state while every other path is
still restored; (iii) over mutations with pairwise-distinct paths the final
state is independent of replay order.  Root and recorded paths are clean
(relative, no empty or dot segments), as the mutation recorder produces
them. -/
theorem C3_rollback_protocol (root : List String) (ioFails : FileMutation → Bool)
    (st : FSState) (muts : List FileMutation)
    (hroot : ∀ s ∈ root, cleanSeg s = true)
    (hclean : ∀ m ∈ muts, cleanRelPath m.path = true) :
    (∀ q, (∀ m ∈ muts, mutationTarget root m ≠ q) →
      rollbackMutations root ioFails st muts q = st q) ∧
    (∀ m ∈ muts, isLatestFor muts m →
      rollbackMutations root ioFails st muts (mutationTarget root m) =
        (if ioFails m then st (mutationTarget root m) else rollbackResultAt root st m)) ∧
    (muts.Pairwise (fun m1 m2 => m1.path ≠ m2.path) →
      ∀ muts2, muts.Perm muts2 → ∀ q,
        rollbackMutations root ioFails st muts2 q = rollbackMutations root ioFails st muts q) := by
  have hsubset : ∀ x ∈ latestByPath muts, x ∈ muts := by
    intro x hx
    rcases latestByPath_subset muts [] x hx with h | h
    · cases h
    · exact h
  have hshow : ∀ muts2, rollbackMutations root ioFails st muts2 =
      ((latestByPath muts2).reverse).foldl (rollbackStep root ioFails) st := fun _ => rfl
  refine ⟨?_, ?_, ?_⟩
  · intro q hq
    rw [hshow]
    exact foldl_rollbackStep_ne root ioFails _ st q
      (fun m hm => hq m (hsubset m (List.mem_reverse.mp hm)))
  · intro m hm hlatest
    have hfind : (latestByPath muts).find? (fun x => x.path = m.path) = some m := by
      rw [latestByPath_find_nil muts m.path]
      exact hlatest
    have hmem : m ∈ latestByPath muts := List.mem_of_find?_eq_some hfind
    have hmemrev : m ∈ (latestByPath muts).reverse := List.mem_reverse.mpr hmem
    obtain ⟨L1, L2, hsplit⟩ := List.append_of_mem hmemrev
    have hnodup : (((latestByPath muts).reverse).map (fun x => x.path)).Nodup := by
      rw [List.map_reverse]
      exact (List.nodup_reverse).mpr (latestByPath_paths_nodup muts [] (by simp))
    rw [hsplit, List.map_append, List.map_cons] at hnodup
    have hno := List.nodup_append.mp hnodup
    have hothers : ∀ x, x ∈ L1 ∨ x ∈ L2 → x.path ≠ m.path := by
      intro x hx hxy
      rcases hx with h1 | h2
      · exact hno.2.2 (List.mem_map.mpr ⟨x, h1, hxy⟩) (by simp)
      · exact (List.nodup_cons.mp hno.2.1).1 (List.mem_map.mpr ⟨x, h2, hxy⟩)
    have hmemL : ∀ x, x ∈ L1 ∨ x ∈ L2 → x ∈ muts := by
      intro x hx
      apply hsubset
      apply List.mem_reverse.mp
      rw [hsplit]
      rcases hx with h1 | h2
      · exact List.mem_append.mpr (Or.inl h1)
      · exact List.mem_append.mpr (Or.inr (by simp [h2]))
    have htargets : ∀ x, x ∈ L1 ∨ x ∈ L2 →
        mutationTarget root x ≠ mutationTarget root m := by
      intro x hx
      exact mutationTarget_inj root x m hroot (hclean x (hmemL x hx)) (hclean m hm)
        (hothers x hx)
    rw [hshow, hsplit]
    exact foldl_rollbackStep_unique root ioFails L1 L2 m st
      (fun x hx => htargets x (Or.inl hx)) (fun x hx => htargets x (Or.inr hx))
  · intro hpair muts2 hperm q
    have hclean2 : ∀ m ∈ muts2, cleanRelPath m.path = true :=
      fun m hm => hclean m (hperm.mem_iff.mpr hm)
    have h2pair : muts2.Pairwise (fun m1 m2 => m1.path ≠ m2.path) :=
      (hperm.pairwise_iff (fun h => h.symm)).mp hpair
    have heq1 : latestByPath muts = muts := by
      unfold latestByPath
      rw [foldl_mapSetMutation_append muts [] (by simp) hpair]
      simp
    have heq2 : latestByPath muts2 = muts2 := by
      unfold latestByPath
      rw [foldl_mapSetMutation_append muts2 [] (by simp) h2pair]
      simp
    by_cases hex : ∃ m, m ∈ muts ∧ mutationTarget root m = q
    · obtain ⟨m, hm, htq⟩ := hex
      subst htq
      rw [hshow muts2, hshow muts, heq1, heq2]
      rw [foldl_rollbackStep_of_mem root ioFails st muts m hroot hclean hpair hm,
        foldl_rollbackStep_of_mem root ioFails st muts2 m hroot hclean2 h2pair
          (hperm.mem_iff.mp hm)]
    · push_neg at hex
      rw [hshow muts2, hshow muts, heq1, heq2]
      rw [foldl_rollbackStep_ne root ioFails muts.reverse st q
          (fun x hx => hex x (List.mem_reverse.mp hx)),
        foldl_rollbackStep_ne root ioFails muts2.reverse st q
          (fun x hx => hex x (hperm.mem_iff.mpr (List.mem_reverse.mp hx)))]

/-- Witness for C3: two applied mutations — a write over previous content and
a delete of a previously missing file — with no replay failures. -/
theorem C3_rollback_protocol_witness :
    (∀ q, (∀ m ∈ rollbackScenario, mutationTarget ["ws"] m ≠ q) →
      rollbackMutations ["ws"] (fun _ => false) (fun _ => none) rollbackScenario q = none) ∧
    (∀ m ∈ rollbackScenario, isLatestFor rollbackScenario m →
      rollbackMutations ["ws"] (fun _ => false) (fun _ => none) rollbackScenario
          (mutationTarget ["ws"] m) =
        (if (fun _ => false : FileMutation → Bool) m then
          (fun _ => none : FSState) (mutationTarget ["ws"] m)
         else rollbackResultAt ["ws"] (fun _ => none) m)) ∧
    (rollbackScenario.Pairwise (fun m1 m2 => m1.path ≠ m2.path) →
      ∀ muts2, rollbackScenario.Perm muts2 → ∀ q,
        rollbackMutations ["ws"] (fun _ => false) (fun _ => none) muts2 q =
          rollbackMutations ["ws"] (fun _ => false) (fun _ => none) rollbackScenario q) :=
  C3_rollback_protocol ["ws"] (fun _ => false) (fun _ => none) rollbackScenario
    (by decide) (by decide)

end Myaide
